import Mathlib

/-!
# Knapsack solvers of `solver.go`

A shallow embedding of the two solvers of `src/solver.go`:

* the dynamic-programming solver `solveDynamicProgramming` (table fill and
  backtracking), and
* the branch-and-bound solver `solveBranchAndBound` / `knapsackBranchAndBound`
  with its bound `Node.estimate` and the priority queue `Items`.

Conventions of the embedding.

* `int32` values are integers; every `int32` addition, subtraction and
  multiplication of the source whose result is not bounded by a loop guard is
  passed through `wrap32` (two's complement wrap-around).
* `float32` values that the program computes from integers are integers
  themselves; `f32` is the IEEE-754 binary32 rounding (nearest, ties to even)
  of an integer, so `float32(x)` is `f32 x` and the sum of two such floats
  `a + b` is `f32 (a + b)`.
* A run-time panic of the Go program (index out of range, negative length in
  `make`, integer division by zero) is the result `none` (or `Outcome.crash`).
* Slices are lists.
* The loop of `knapsackBranchAndBound` is given as `bbLoop`, with a bound on the
  number of iterations, and as the step function `bbStep` on the state
  `(pq, *maxvalue)`; `bbLoop_succ` relates the two.
-/

namespace Knapsack

/-! ## Machine arithmetic -/

/-- Two's-complement reduction of an integer to the `int32` range. -/
def wrap32 (x : Int) : Int := (x + 2147483648) % 4294967296 - 2147483648

/-- Nearest integer to `A / B`, ties to even (`B > 0`). -/
def roundNE (A B : Nat) : Nat :=
  let m := A / B
  let r := A % B
  if 2 * r < B then m else if B < 2 * r then m + 1 else if m % 2 = 0 then m else m + 1

/-- The binary32 value nearest to the integer `x` (24-bit significand,
round to nearest, ties to even): the conversion `float32(x)`. -/
def f32 (x : Int) : Int :=
  if x.natAbs < 16777216 then x
  else
    let q := 2 ^ (Nat.log2 x.natAbs - 23)
    Int.sign x * ((roundNE x.natAbs q * q : Nat) : Int)

/-- Source: `func max(a int32, b int32) (r int32)`, lines 11-17. -/
def max (a b : Int) : Int := if a > b then a else b

/-! ## Nodes and the priority queue `Items` -/

/-- Source: `type Node struct`, lines 19-24. The `bound` field is a `float32`
holding an integer value. -/
structure Node where
  index : Int
  value : Int
  weight : Int
  bound : Int
  deriving DecidableEq, Repr

/-- Source: `type Items []Node`. -/
abbrev Items := List Node

/-- Source: `Items.Less`, line 31: `self[i].bound < self[j].bound`. -/
def Items.Less (self : Items) (i j : Nat) : Bool :=
  match self[i]?, self[j]? with
  | some a, some b => decide (a.bound < b.bound)
  | _, _ => false

/-- Source: `Items.Swap` (line 32) and `ByValuePerWeight.Swap` (line 50). -/
def Items.Swap (self : Items) (i j : Nat) : Items :=
  match self[i]?, self[j]? with
  | some a, some b => (self.set i b).set j a
  | _, _ => self

/-- Library `container/heap`, `up(h, j)`: sift the element at `j` towards the
root while it is `Less` than its parent `(j - 1) / 2`. The first argument
bounds the number of iterations; `j + 1` always suffices. -/
def heapUp : Nat → Items → Nat → Items
  | 0, h, _ => h
  | fuel + 1, h, j =>
    let i := (j - 1) / 2
    if i = j ∨ !(h.Less j i) then h else heapUp fuel (h.Swap i j) i

/-- Library `container/heap`, `down(h, i0, n)`: sift the element at `i` away
from the root inside the first `n` slots. The first argument bounds the number
of iterations; `n` always suffices. -/
def heapDown (n : Nat) : Nat → Items → Nat → Items
  | 0, h, _ => h
  | fuel + 1, h, i =>
    let j1 := 2 * i + 1
    if n ≤ j1 then h
    else
      let j := if j1 + 1 < n ∧ h.Less (j1 + 1) j1 then j1 + 1 else j1
      if !(h.Less j i) then h else heapDown n fuel (h.Swap i j) j

/-- Library `heap.Push(pq, x)`: `Items.Push` appends (line 33), then `up`. -/
def heapPush (pq : Items) (x : Node) : Items :=
  heapUp (pq.length + 1) (pq ++ [x]) pq.length

/-- Library `heap.Pop(pq)`: swap the root with the last slot, `down` on the
shortened heap, then `Items.Pop` removes and returns the last slot
(lines 34-38). `none` on an empty queue (index out of range). -/
def heapPop (pq : Items) : Option (Node × Items) :=
  let n := pq.length - 1
  let h := heapDown n n (pq.Swap 0 n) 0
  match h.getLast? with
  | none => none
  | some x => some (x, h.dropLast)

/-! ## Sorting by value per weight -/

/-- A `float32` quotient: not-a-number, an infinity, or a finite value. -/
inductive Quot32 where
  | nan : Quot32
  | negInf : Quot32
  | fin : Rat → Quot32
  | posInf : Quot32
  deriving DecidableEq

/-- The comparison `a < b` of two `float32` quotients. -/
def Quot32.lt : Quot32 → Quot32 → Bool
  | .nan, _ => false
  | _, .nan => false
  | .posInf, _ => false
  | _, .negInf => false
  | .negInf, _ => true
  | _, .posInf => true
  | .fin a, .fin b => decide (a < b)

/-- The binary32 value nearest to the positive rational `n / d`
(`n, d > 0`, normal range). -/
def round32Pos (n d : Nat) : Rat :=
  let e0 : Int := (Nat.log2 n : Int) - (Nat.log2 d : Int)
  let ge : Bool := if 0 ≤ e0 then decide (d * 2 ^ e0.toNat ≤ n) else decide (d ≤ n * 2 ^ (-e0).toNat)
  let s : Int := (if ge then e0 else e0 - 1) - 23
  if 0 ≤ s then (roundNE n (d * 2 ^ s.toNat) : Rat) * (2 : Rat) ^ s.toNat
  else (roundNE (n * 2 ^ (-s).toNat) d : Rat) / (2 : Rat) ^ (-s).toNat

/-- The `float32` quotient `float32(a) / float32(b)`. -/
def div32 (a b : Int) : Quot32 :=
  let x := f32 a
  let y := f32 b
  if y = 0 then
    if x = 0 then .nan else if 0 < x then .posInf else .negInf
  else if x = 0 then .fin 0
  else
    let q := round32Pos x.natAbs y.natAbs
    if (0 < x) = (0 < y) then .fin q else .fin (-q)

/-- Source: `ByValuePerWeight.Less`, lines 45-49. -/
def ByValuePerWeight.Less (self : Items) (i j : Nat) : Bool :=
  match self[i]?, self[j]? with
  | some x, some y => (div32 x.value x.weight).lt (div32 y.value y.weight)
  | _, _ => false

/-- Inner loop of the library insertion sort:
`for j := i; j > 0 && data.Less(j, j-1); j-- { data.Swap(j, j-1) }`. -/
def insertionInner : Nat → Items → Items
  | 0, data => data
  | j + 1, data =>
    if ByValuePerWeight.Less data (j + 1) j then insertionInner j (data.Swap (j + 1) j)
    else data

/-- Library `sort.Sort` on `ByValuePerWeight`, as the insertion sort
`for i := 1; i < n; i++ { inner loop }` that the library runs on short
slices. -/
def sortSort (data : Items) : Items :=
  (List.range' 1 (data.length - 1)).foldl (fun d i => insertionInner i d) data

/-! ## Branch and bound -/

/-- The access `items[i]` with an `int32` index. -/
def getItem (items : Items) (i : Int) : Option Node :=
  if i < 0 then none else items[i.toNat]?

/-- Source: the loop of `Node.estimate`, lines 67-71, as a function from the
loop variables `(j, totweight, result)` to their values at loop exit. The first
argument bounds the number of iterations; `N - j` always suffices, as `j`
grows by one per iteration and the loop stops at `j = N`. -/
def estimateLoop (K N : Int) (items : Items) : Nat → Int → Int → Int → Option (Int × Int × Int)
  | 0, j, totweight, result => some (j, totweight, result)
  | fuel + 1, j, totweight, result =>
    if j < N then
      match getItem items j with
      | none => none
      | some it =>
        if wrap32 (totweight + it.weight) ≤ K then
          estimateLoop K N items fuel (j + 1) (wrap32 (totweight + it.weight))
            (f32 (result + f32 it.value))
        else some (j, totweight, result)
    else some (j, totweight, result)

/-- Source: `func (node *Node) estimate(K int32, N int32, items Items) float32`,
lines 54-79. -/
def Node.estimate (node : Node) (K N : Int) (items : Items) : Option Int :=
  if node.weight ≥ K then some 0
  else
    let j0 := wrap32 (node.index + 1)
    match estimateLoop K N items (N - j0).toNat j0 node.weight (f32 node.value) with
    | none => none
    | some (k, totweight, result) =>
      if k < N then
        match getItem items k with
        | none => none
        | some it =>
          if it.weight = 0 then none
          else
            some (f32 (result +
              f32 (wrap32 (Int.tdiv (wrap32 (wrap32 (K - totweight) * it.value)) it.weight))))
      else some result

/-- Result of a run of the branch-and-bound loop. -/
inductive Outcome where
  | done : Int → Outcome
  | crash : Outcome
  | outOfFuel : Outcome
  deriving DecidableEq, Repr

/-- Source: the loop `for pq.Len() != 0` of `knapsackBranchAndBound`,
lines 97-119, on the state `(pq, *maxvalue)`. The first argument bounds the
number of iterations. -/
def bbLoop (K N : Int) (items : Items) : Nat → Items → Int → Outcome
  | 0, _, _ => .outOfFuel
  | fuel + 1, pq, maxvalue =>
    if pq.length = 0 then .done maxvalue
    else
      match heapPop pq with
      | none => .crash
      | some (v, pq1) =>
        if v.bound > f32 maxvalue then
          let uindex := wrap32 (v.index + 1)
          match getItem items uindex with
          | none => .crash
          | some it =>
            let uvalue := wrap32 (v.value + it.value)
            let uweight := wrap32 (v.weight + it.weight)
            let maxvalue1 := if uweight ≤ K ∧ uvalue > maxvalue then uvalue else maxvalue
            match Node.estimate ⟨uindex, uvalue, uweight, 0⟩ K N items with
            | none => .crash
            | some b1 =>
              let pq2 := if b1 > f32 maxvalue1 then heapPush pq1 ⟨uindex, uvalue, uweight, b1⟩
                else pq1
              match Node.estimate ⟨uindex, v.value, v.weight, b1⟩ K N items with
              | none => .crash
              | some b2 =>
                let pq3 := if b2 > f32 maxvalue1 then heapPush pq2 ⟨uindex, v.value, v.weight, b2⟩
                  else pq2
                bbLoop K N items fuel pq3 maxvalue1
        else bbLoop K N items fuel pq1 maxvalue

/-- Source: `func knapsackBranchAndBound(K int32, items Items, maxvalue *int32)`,
lines 84-120; the result is the final `*maxvalue`. -/
def knapsackBranchAndBound (fuel : Nat) (K : Int) (items : Items) : Outcome :=
  let N := wrap32 items.length
  match Node.estimate ⟨0, 0, 0, 0⟩ K N items with
  | none => .crash
  | some b => bbLoop K N items fuel (heapPush [] ⟨0, 0, 0, b⟩) 0

/-- Source: lines 101-103 of `knapsackBranchAndBound`, the child `u` of the
popped node `v` that includes the next item (its `bound` is set by the caller);
`none` when `items[u.index]` is out of range. -/
def includeChild (v : Node) (items : Items) : Option Node :=
  match getItem items (wrap32 (v.index + 1)) with
  | none => none
  | some it =>
    some ⟨wrap32 (v.index + 1), wrap32 (v.value + it.value), wrap32 (v.weight + it.weight), 0⟩

/-- Source: the body of the loop of `knapsackBranchAndBound`, lines 98-118, on
the state `(pq, *maxvalue)`; `none` is a panic. -/
def bbStep (K N : Int) (items : Items) (s : Items × Int) : Option (Items × Int) :=
  match heapPop s.1 with
  | none => none
  | some (v, pq1) =>
    if v.bound > f32 s.2 then
      match includeChild v items with
      | none => none
      | some u =>
        let maxvalue1 := if u.weight ≤ K ∧ u.value > s.2 then u.value else s.2
        match Node.estimate u K N items with
        | none => none
        | some b1 =>
          let pq2 := if b1 > f32 maxvalue1 then heapPush pq1 ⟨u.index, u.value, u.weight, b1⟩
            else pq1
          match Node.estimate ⟨u.index, v.value, v.weight, b1⟩ K N items with
          | none => none
          | some b2 =>
            let pq3 := if b2 > f32 maxvalue1 then heapPush pq2 ⟨u.index, v.value, v.weight, b2⟩
              else pq2
            some (pq3, maxvalue1)
    else some (pq1, s.2)

/-- Source: lines 90-95 of `knapsackBranchAndBound`, the state `(pq, *maxvalue)`
on entry to the loop: the root `Node{0, 0, 0, 0}` with its bound, pushed on the
empty queue, and `*maxvalue = 0`. -/
def bbInit (K : Int) (items : Items) : Option (Items × Int) :=
  match Node.estimate ⟨0, 0, 0, 0⟩ K (wrap32 items.length) items with
  | none => none
  | some b => some (heapPush [] ⟨0, 0, 0, b⟩, 0)

/-- The state of `knapsackBranchAndBound` after `n` iterations of its loop
(the state at loop exit, if the frontier is empty earlier). -/
def bbIter (K N : Int) (items : Items) : Nat → Items × Int → Option (Items × Int)
  | 0, s => some s
  | n + 1, s =>
    if s.1.length = 0 then some s
    else
      match bbStep K N items s with
      | none => none
      | some s1 => bbIter K N items n s1

/-- The states that a run of `knapsackBranchAndBound K items` passes through
at the head of its loop. -/
def Reachable (K : Int) (items : Items) (s : Items × Int) : Prop :=
  ∃ s0 n, bbInit K items = some s0 ∧ bbIter K (wrap32 items.length) items n s0 = some s

/-- Source: the loop of `solveBranchAndBound`, lines 123-127, building
`Node{int32(i), v[i], w[i], -1}`; `none` when `w` is shorter than `v`. -/
def mkItems (v w : List Int) : Option Items :=
  if w.length < v.length then none
  else some ((List.range v.length).map fun (i : Nat) =>
    (⟨wrap32 (i : Int), v.getD i 0, w.getD i 0, -1⟩ : Node))

/-- Source: `func solveBranchAndBound(K int32, v []int32, w []int32)`,
lines 122-135; the result is the printed `maxvalue`. -/
def solveBranchAndBound (fuel : Nat) (K : Int) (v w : List Int) : Outcome :=
  match mkItems v w with
  | none => .crash
  | some items => knapsackBranchAndBound fuel K (sortSort items)

/-! ## Dynamic programming -/

/-- Source: the table `O`, a slice of rows. -/
abbrev Table := List (List Int)

/-- The read `O[k][j]` with `int32` indices. -/
def Table.read (O : Table) (k j : Int) : Option Int :=
  if k < 0 ∨ j < 0 then none
  else
    match O[k.toNat]? with
    | none => none
    | some row => row[j.toNat]?

/-- The assignment `O[k][j] = x`. -/
def Table.write (O : Table) (k j : Nat) (x : Int) : Option Table :=
  match O[k]? with
  | none => none
  | some row => if j < row.length then some (O.set k (row.set j x)) else none

/-- A loop `for i := lo; i < lo + n; i++ { body }` over a state, where the
body may fail. -/
def forLoop {σ : Type} (body : Nat → σ → Option σ) : Nat → Nat → σ → Option σ
  | _, 0, s => some s
  | lo, n + 1, s =>
    match body lo s with
    | none => none
    | some s1 => forLoop body (lo + 1) n s1

/-- Source: the body of the inner loop of `solveDynamicProgramming`,
lines 168-172. -/
def fillCell (v w : List Int) (k j : Nat) (O : Table) : Option Table :=
  match w[j - 1]? with
  | none => none
  | some wj =>
    if wj ≤ (k : Int) then
      match O.read k ((j : Int) - 1), v[j - 1]?, O.read (wrap32 ((k : Int) - wj)) ((j : Int) - 1) with
      | some a, some vj, some b => O.write k j (max a (wrap32 (vj + b)))
      | _, _, _ => none
    else
      match O.read k ((j : Int) - 1) with
      | some a => O.write k j a
      | none => none

/-- Source: the nested loops of `solveDynamicProgramming`, lines 165-174. -/
def fillTable (v w : List Int) (K N : Nat) (O : Table) : Option Table :=
  forLoop (fun k O1 => forLoop (fun j O2 => fillCell v w k j O2) 1 N O1) 1 K O

/-- Source: the backtracking loop of `solveDynamicProgramming`, lines 177-183,
`for i = N; i > 0; i--`, on the state `(k, x)`. -/
def backtrack (O : Table) (w : List Int) : Nat → Int → List Int → Option (Int × List Int)
  | 0, k, x => some (k, x)
  | i + 1, k, x =>
    match O.read k ((i : Int) + 1), O.read k i with
    | some a, some b =>
      if a ≠ b then
        if i < x.length then
          match w[i]? with
          | none => none
          | some wi => backtrack O w i (wrap32 (k - wi)) (x.set i 1)
        else none
      else backtrack O w i k x
    | _, _ => none

/-- Source: `func solveDynamicProgramming(K int32, v []int32, w []int32)`,
lines 139-192. The result is the printed pair: the value `O[K][N]` and the
vector `x`. Lines 142-159 allocate the `(K+1) × (N+1)` table and the vector
`x`, all zero; the allocation panics when `K + 1` or `N + 1` is negative as an
`int32`, and for `K < 0` there is no row `O[0]`, resp. `O[K]`, to access. -/
def solveDynamicProgramming (K : Int) (v w : List Int) : Option (Int × List Int) :=
  let N := wrap32 v.length
  if wrap32 (K + 1) < 0 ∨ N < 0 ∨ K < 0 ∨ wrap32 (N + 1) < 0 then none
  else
    let O : Table := List.replicate (K + 1).toNat (List.replicate (N + 1).toNat 0)
    let x : List Int := List.replicate N.toNat 0
    match fillTable v w K.toNat N.toNat O with
    | none => none
    | some O1 =>
      match O1.read K N with
      | none => none
      | some val =>
        match backtrack O1 w N.toNat K x with
        | none => none
        | some (_, x1) => some (val, x1)

/-! ## Specification-side notions -/

/-- Total value (or weight) of the items whose indices are in `S`. -/
def total (xs : List Int) (S : Finset Nat) : Int := ∑ i ∈ S, xs.getD i 0

/-- The indices that an inclusion vector `x` marks with 1 among the first `n`. -/
def chosen (x : List Int) (n : Nat) : Finset Nat :=
  (Finset.range n).filter fun i => x.getD i 0 = 1

/-- The instances on which the `int32` arithmetic of `solveDynamicProgramming`
is exact: a capacity `K ≥ 0` with `K + 1` an `int32`, values and weights of
equal length `N` with `N + 1` an `int32`, values non-negative with an `int32`
sum, weights positive. -/
def Valid (K : Int) (v w : List Int) : Prop :=
  0 ≤ K ∧ K + 1 < 2147483648 ∧ v.length = w.length ∧ (v.length : Int) + 1 < 2147483648 ∧
    (∀ a ∈ v, 0 ≤ a) ∧ (∀ a ∈ w, 0 < a) ∧ v.sum < 2147483648

instance (K : Int) (v w : List Int) : Decidable (Valid K v w) := by
  unfold Valid; infer_instance

/-- The values of an item sequence, by position. -/
def itemValues (items : Items) : List Int := items.map fun it => it.value

/-- The weights of an item sequence, by position. -/
def itemWeights (items : Items) : List Int := items.map fun it => it.weight

/-- The include child of `v` built from the item `it` (lines 101-103). -/
def incNode (v it : Node) : Node :=
  ⟨wrap32 (v.index + 1), wrap32 (v.value + it.value), wrap32 (v.weight + it.weight), 0⟩

/-- The node `n` with its bound set to `b`. -/
def setBound (n : Node) (b : Int) : Node := ⟨n.index, n.value, n.weight, b⟩

/-- The exclude child of `v` (lines 112-114) with bound `b`. -/
def excNode (v : Node) (b : Int) : Node := ⟨wrap32 (v.index + 1), v.value, v.weight, b⟩

/-- The update of `*maxvalue` by the include child `u` (lines 104-106). -/
def newMax (K m : Int) (u : Node) : Int := if u.weight ≤ K ∧ u.value > m then u.value else m

/-- The guarded push `if u.bound > float32(*maxvalue) { heap.Push(pq, u) }`
(lines 108-110 and 115-117). -/
def pushIf (pq : Items) (m : Int) (n : Node) : Items :=
  if n.bound > f32 m then heapPush pq n else pq

/-- What the search maintains for a node `n` of the frontier while the best
value found is `m`: a non-negative index, a weight within the capacity, a
value not above `m`, and a bound of at most 0 when no item is left to decide. -/
def NodeOK (K N m : Int) (n : Node) : Prop :=
  0 ≤ n.index ∧ n.weight ≤ K ∧ n.value ≤ m ∧ (N ≤ n.index + 1 → n.bound ≤ 0)

/-- The invariant of the loop of `knapsackBranchAndBound` on `(pq, *maxvalue)`. -/
def FrontierInv (K N : Int) (s : Items × Int) : Prop :=
  0 ≤ s.2 ∧ ∀ n ∈ s.1, NodeOK K N s.2 n

/-- The weight of a node in the termination measure: `2^(N - index + 1) - 1`. -/
def nodeMeasure (N : Int) (n : Node) : Nat := 2 ^ ((N - n.index).toNat + 1) - 1

/-- The termination measure of a frontier. -/
def frontierMeasure (N : Int) (pq : Items) : Nat := (pq.map (nodeMeasure N)).sum

/-- The value `m` is the total value of a set of items of total weight at
most `K`. -/
def Achieved (K : Int) (items : Items) (m : Int) : Prop :=
  ∃ S : Finset Nat, S ⊆ Finset.range items.length ∧ total (itemWeights items) S ≤ K ∧
    total (itemValues items) S = m

/-- The accumulated value and weight of the node `n` are the totals of a set
of items at positions `1 .. n.index`. -/
def NodeSum (items : Items) (n : Node) : Prop :=
  ∃ S : Finset Nat, (∀ i ∈ S, 1 ≤ i ∧ (i : Int) ≤ n.index) ∧
    n.value = total (itemValues items) S ∧ n.weight = total (itemWeights items) S

/-- The second invariant of the loop: the best value is achieved by a
feasible set of items, and every node of the frontier is the sum of a set of
items. -/
def SumInv (K : Int) (items : Items) (s : Items × Int) : Prop :=
  Achieved K items s.2 ∧ ∀ n ∈ s.1, NodeSum items n

/-- The rounding of `f32` on a natural number: the identity below `2^24`,
above it the nearest multiple of the spacing of the binade. -/
def round24 (a : Nat) : Nat :=
  if a < 16777216 then a
  else roundNE a (2 ^ (Nat.log2 a - 23)) * 2 ^ (Nat.log2 a - 23)

/-- The knapsack recurrence on the first `j` items with capacity `k`. -/
def opt (v w : List Int) : Nat → Int → Int
  | 0, _ => 0
  | j + 1, k =>
    if w.getD j 0 ≤ k then max (opt v w j k) (v.getD j 0 + opt v w j (k - w.getD j 0))
    else opt v w j k

/-- The read `O[k][j]` with natural indices. -/
def readN (O : Table) (k j : Nat) : Option Int :=
  match O[k]? with
  | none => none
  | some row => row[j]?

/-- The state of the table when the fill is about to write cell `(k0, j0)`:
every cell of the `(K+1) × (N+1)` table exists, and row 0, column 0 and the
cells already written hold the recurrence. -/
def TableInv (v w : List Int) (K N : Nat) (k0 j0 : Nat) (O : Table) : Prop :=
  ∀ k j, k ≤ K → j ≤ N →
    (∃ x, readN O k j = some x) ∧
      ((k < k0 ∨ (k = k0 ∧ j < j0) ∨ k = 0 ∨ j = 0) → readN O k j = some (opt v w j k))

/-- The state of the table when the fill is about to write cell `(k0, j0)`,
without any assumption on the values: every cell of the `(K+1) × (N+1)` table
exists, row 0 is zero, and a cell already written differs from its left
neighbour only if the item of its column fits into its capacity. -/
def ShapeInv (w : List Int) (K N : Nat) (k0 j0 : Nat) (O : Table) : Prop :=
  ∀ k j, k ≤ K → j ≤ N →
    (∃ x, readN O k j = some x) ∧ (k = 0 → readN O k j = some 0) ∧
      (∀ i, j = i + 1 → (k < k0 ∨ (k = k0 ∧ j < j0)) →
        readN O k (i + 1) ≠ readN O k i → w.getD i 0 ≤ k)

/-! ## Basic lemmas -/

theorem wrap32_eq {x : Int} (h1 : -2147483648 ≤ x) (h2 : x < 2147483648) : wrap32 x = x := by
  unfold wrap32; omega

theorem read_cast (O : Table) (k j : Nat) : O.read (k : Int) (j : Int) = readN O k j := by
  unfold Table.read readN
  have h : ¬ ((k : Int) < 0 ∨ (j : Int) < 0) := by omega
  simp only [h, if_false, Int.toNat_ofNat]

theorem write_some {O : Table} {k j : Nat} {y : Int} (x : Int) (h : readN O k j = some y) :
    ∃ O1, O.write k j x = some O1 ∧
      ∀ k1 j1, readN O1 k1 j1 = if k1 = k ∧ j1 = j then some x else readN O k1 j1 := by
  unfold readN at h
  cases hO : O[k]? with
  | none => simp [hO] at h
  | some row =>
    simp only [hO] at h
    have hj : j < row.length := by
      rcases List.getElem?_eq_some.1 h with ⟨hlt, _⟩
      exact hlt
    have hk : k < O.length := by
      rcases List.getElem?_eq_some.1 hO with ⟨hlt, _⟩
      exact hlt
    refine ⟨O.set k (row.set j x), ?_, ?_⟩
    · simp [Table.write, hO, hj]
    · intro k1 j1
      unfold readN
      by_cases hk1 : k1 = k
      · subst hk1
        by_cases hj1 : j1 = j
        · subst hj1
          simp [List.getElem?_set, hk, hj]
        · have hj2 : ¬ j = j1 := fun e => hj1 e.symm
          simp [List.getElem?_set, hk, hj1, hj2, hO]
      · have hk2 : ¬ k = k1 := fun e => hk1 e.symm
        simp [List.getElem?_set, hk1, hk2]

theorem forLoop_inv {σ : Type} (body : Nat → σ → Option σ) (I : Nat → σ → Prop) :
    ∀ (n lo : Nat) (s : σ),
      (∀ i s1, lo ≤ i → i < lo + n → I i s1 → ∃ s2, body i s1 = some s2 ∧ I (i + 1) s2) →
      I lo s → ∃ s2, forLoop body lo n s = some s2 ∧ I (lo + n) s2 := by
  intro n
  induction n with
  | zero => intro lo s _ h0; exact ⟨s, rfl, by simpa using h0⟩
  | succ n ih =>
    intro lo s hstep h0
    obtain ⟨s1, hb, h1⟩ := hstep lo s (Nat.le_refl _) (by omega) h0
    obtain ⟨s2, hf, h2⟩ := ih (lo + 1) s1
      (fun i t hi1 hi2 => hstep i t (by omega) (by omega)) h1
    refine ⟨s2, ?_, ?_⟩
    · simp only [forLoop, hb, hf]
    · have e : lo + (n + 1) = lo + 1 + n := by omega
      rw [e]; exact h2

/-! ## Sums over index sets -/

theorem getD_nonneg {v : List Int} (hv : ∀ a ∈ v, 0 ≤ a) (i : Nat) : 0 ≤ v.getD i 0 := by
  by_cases h : i < v.length
  · rw [List.getD_eq_getElem v 0 h]
    exact hv _ (List.getElem_mem h)
  · rw [List.getD_eq_default v 0 (by omega)]

theorem getD_pos {w : List Int} (hw : ∀ a ∈ w, 0 < a) {i : Nat} (h : i < w.length) :
    0 < w.getD i 0 := by
  rw [List.getD_eq_getElem w 0 h]
  exact hw _ (List.getElem_mem h)

theorem total_range_succ (xs : List Int) (j : Nat) :
    total xs (Finset.range (j + 1)) = total xs (Finset.range j) + xs.getD j 0 := by
  unfold total
  rw [Finset.sum_range_succ]

theorem total_range_length (xs : List Int) : total xs (Finset.range xs.length) = xs.sum := by
  induction xs with
  | nil => simp [total]
  | cons a t ih =>
    unfold total at ih ⊢
    rw [List.length_cons, Finset.sum_range_succ', List.sum_cons]
    simp only [List.getD_cons_succ, List.getD_cons_zero]
    rw [ih]; ring

theorem total_nonneg {xs : List Int} (h : ∀ a ∈ xs, 0 ≤ a) (S : Finset Nat) : 0 ≤ total xs S :=
  Finset.sum_nonneg fun i _ => getD_nonneg h i

theorem total_mono {xs : List Int} (h : ∀ a ∈ xs, 0 ≤ a) {S T : Finset Nat} (hST : S ⊆ T) :
    total xs S ≤ total xs T :=
  Finset.sum_le_sum_of_subset_of_nonneg hST fun i _ _ => getD_nonneg h i

theorem total_range_le {xs : List Int} (h : ∀ a ∈ xs, 0 ≤ a) {j n : Nat} (hjn : j ≤ n) :
    total xs (Finset.range j) ≤ total xs (Finset.range n) :=
  total_mono h (Finset.range_subset.2 hjn)

/-! ## The recurrence `opt` -/

theorem max_ge_left (a b : Int) : a ≤ max a b := by
  unfold max; split <;> omega

theorem max_ge_right (a b : Int) : b ≤ max a b := by
  unfold max; split <;> omega

theorem max_cases (a b : Int) : (max a b = a ∧ b ≤ a) ∨ (max a b = b ∧ a ≤ b) := by
  unfold max; split
  · left; exact ⟨rfl, by omega⟩
  · right; exact ⟨rfl, by omega⟩

theorem opt_succ_le (v w : List Int) (j : Nat) (k : Int) (h : w.getD j 0 ≤ k) :
    opt v w (j + 1) k = max (opt v w j k) (v.getD j 0 + opt v w j (k - w.getD j 0)) := by
  simp only [opt, h, if_true]

theorem opt_succ_gt (v w : List Int) (j : Nat) (k : Int) (h : ¬ w.getD j 0 ≤ k) :
    opt v w (j + 1) k = opt v w j k := by
  simp only [opt, h, if_false]

theorem opt_nonneg (v w : List Int) (j : Nat) : ∀ k, 0 ≤ opt v w j k := by
  induction j with
  | zero => intro k; simp [opt]
  | succ j ih =>
    intro k
    by_cases h : w.getD j 0 ≤ k
    · rw [opt_succ_le v w j k h]
      exact le_trans (ih k) (max_ge_left _ _)
    · rw [opt_succ_gt v w j k h]; exact ih k

theorem opt_le_total {v : List Int} (hv : ∀ a ∈ v, 0 ≤ a) (w : List Int) (j : Nat) :
    ∀ k, opt v w j k ≤ total v (Finset.range j) := by
  induction j with
  | zero => intro k; simp [opt, total]
  | succ j ih =>
    intro k
    rw [total_range_succ]
    have h0 := getD_nonneg hv j
    by_cases h : w.getD j 0 ≤ k
    · rw [opt_succ_le v w j k h]
      rcases max_cases (opt v w j k) (v.getD j 0 + opt v w j (k - w.getD j 0)) with ⟨e, _⟩ | ⟨e, _⟩
      · rw [e]; have := ih k; omega
      · rw [e]; have := ih (k - w.getD j 0); omega
    · rw [opt_succ_gt v w j k h]; have := ih k; omega

theorem opt_small {w : List Int} (hw : ∀ a ∈ w, 0 < a) (v : List Int) (j : Nat)
    (hj : j ≤ w.length) : ∀ k, k ≤ 0 → opt v w j k = 0 := by
  induction j with
  | zero => intro k _; simp [opt]
  | succ j ih =>
    intro k hk
    have hp := getD_pos hw (show j < w.length by omega)
    rw [opt_succ_gt v w j k (by omega)]
    exact ih (by omega) k hk

theorem opt_mono_succ (v w : List Int) (j : Nat) (k : Int) :
    opt v w j k ≤ opt v w (j + 1) k := by
  by_cases h : w.getD j 0 ≤ k
  · rw [opt_succ_le v w j k h]; exact max_ge_left _ _
  · rw [opt_succ_gt v w j k h]

theorem total_erase (xs : List Int) {S : Finset Nat} {j : Nat} (h : j ∈ S) :
    total xs S = xs.getD j 0 + total xs (S.erase j) := by
  unfold total
  rw [Finset.add_sum_erase S (fun i => xs.getD i 0) h]

theorem total_insert (xs : List Int) {S : Finset Nat} {j : Nat} (h : j ∉ S) :
    total xs (insert j S) = xs.getD j 0 + total xs S := by
  unfold total
  rw [Finset.sum_insert h]

theorem opt_upper {w : List Int} (hw : ∀ a ∈ w, 0 ≤ a) (v : List Int) (j : Nat) :
    ∀ (k : Int) (S : Finset Nat), S ⊆ Finset.range j → total w S ≤ k →
      total v S ≤ opt v w j k := by
  induction j with
  | zero =>
    intro k S hS _
    have hE : S = ∅ := by
      apply Finset.eq_empty_of_forall_not_mem
      intro i hi
      have := hS hi
      simp at this
    subst hE
    simp [total, opt]
  | succ j ih =>
    intro k S hS hk
    by_cases hjS : j ∈ S
    · have hsub : S.erase j ⊆ Finset.range j := by
        intro i hi
        have h1 := Finset.mem_erase.1 hi
        have h2 := Finset.mem_range.1 (hS h1.2)
        exact Finset.mem_range.2 (by omega)
      have hwS := total_erase w hjS
      have hvS := total_erase v hjS
      have hnn := total_nonneg hw (S.erase j)
      have hle : w.getD j 0 ≤ k := by omega
      have h3 := ih (k - w.getD j 0) (S.erase j) hsub (by omega)
      rw [opt_succ_le v w j k hle]
      have h4 := max_ge_right (opt v w j k) (v.getD j 0 + opt v w j (k - w.getD j 0))
      omega
    · have hsub : S ⊆ Finset.range j := by
        intro i hi
        have h2 := Finset.mem_range.1 (hS hi)
        have hne : i ≠ j := fun e => hjS (e ▸ hi)
        exact Finset.mem_range.2 (by omega)
      exact le_trans (ih k S hsub hk) (opt_mono_succ v w j k)

theorem opt_attained (v w : List Int) (j : Nat) :
    ∀ k : Int, 0 ≤ k → ∃ S : Finset Nat, S ⊆ Finset.range j ∧ total w S ≤ k ∧
      total v S = opt v w j k := by
  induction j with
  | zero =>
    intro k hk
    exact ⟨∅, by simp, by simpa [total] using hk, by simp [total, opt]⟩
  | succ j ih =>
    intro k hk
    have hup : ∀ S : Finset Nat, S ⊆ Finset.range j → S ⊆ Finset.range (j + 1) := by
      intro S hS i hi
      have := Finset.mem_range.1 (hS hi)
      exact Finset.mem_range.2 (by omega)
    by_cases h : w.getD j 0 ≤ k
    · rw [opt_succ_le v w j k h]
      rcases max_cases (opt v w j k) (v.getD j 0 + opt v w j (k - w.getD j 0)) with ⟨e, _⟩ | ⟨e, _⟩
      · obtain ⟨S, hS, hwS, hvS⟩ := ih k hk
        exact ⟨S, hup S hS, hwS, by rw [e]; exact hvS⟩
      · obtain ⟨S, hS, hwS, hvS⟩ := ih (k - w.getD j 0) (by omega)
        have hj : j ∉ S := by
          intro hj
          have := Finset.mem_range.1 (hS hj)
          omega
        refine ⟨insert j S, ?_, ?_, ?_⟩
        · intro i hi
          rcases Finset.mem_insert.1 hi with rfl | hi
          · exact Finset.mem_range.2 (by omega)
          · exact hup S hS hi
        · rw [total_insert w hj]; omega
        · rw [total_insert v hj, e, hvS]
    · rw [opt_succ_gt v w j k h]
      obtain ⟨S, hS, hwS, hvS⟩ := ih k hk
      exact ⟨S, hup S hS, hwS, hvS⟩

/-! ## The table fill -/

theorem readN_zero (K N k j : Nat) (hk : k ≤ K) (hj : j ≤ N) :
    readN (List.replicate (K + 1) (List.replicate (N + 1) (0 : Int))) k j = some 0 := by
  unfold readN
  have h1 : k < K + 1 := by omega
  have h2 : j < N + 1 := by omega
  simp [List.getElem?_replicate, h1, h2]

theorem getElem?_getD (xs : List Int) {i : Nat} (h : i < xs.length) :
    xs[i]? = some (xs.getD i 0) := by
  rw [List.getD_eq_getElem xs 0 h, List.getElem?_eq_getElem h]

theorem fillCell_inv {v w : List Int} {K N : Nat} (hK : (K : Int) + 1 < 2147483648)
    (hlen : v.length = w.length) (hN : N = v.length)
    (hv : ∀ a ∈ v, 0 ≤ a) (hw : ∀ a ∈ w, 0 < a) (hsum : v.sum < 2147483648)
    {k j : Nat} (hk1 : 1 ≤ k) (hkK : k ≤ K) (hj1 : 1 ≤ j) (hjN : j ≤ N) {O : Table}
    (hI : TableInv v w K N k j O) :
    ∃ O1, fillCell v w k j O = some O1 ∧ TableInv v w K N k (j + 1) O1 := by
  obtain ⟨i, rfl⟩ : ∃ i, j = i + 1 := ⟨j - 1, by omega⟩
  have hiw : i < w.length := by omega
  have hiv : i < v.length := by omega
  have hwi := getElem?_getD w hiw
  have hvi := getElem?_getD v hiv
  have hpos := getD_pos hw hiw
  have hcast : ((i + 1 : Nat) : Int) - 1 = (i : Int) := by push_cast; ring
  have hA : O.read (k : Int) (i : Int) = some (opt v w i k) := by
    rw [read_cast]
    exact (hI k i hkK (by omega)).2 (Or.inr (Or.inl ⟨rfl, by omega⟩))
  obtain ⟨y, hy⟩ := (hI k (i + 1) hkK hjN).1
  -- the invariant after writing the value of the recurrence
  have hfin : ∀ O1 : Table,
      (∀ k1 j1, readN O1 k1 j1 =
        if k1 = k ∧ j1 = i + 1 then some (opt v w (i + 1) k) else readN O k1 j1) →
      TableInv v w K N k (i + 1 + 1) O1 := by
    intro O1 hO1 k1 j1 hk1K hj1N
    rw [hO1 k1 j1]
    by_cases hc : k1 = k ∧ j1 = i + 1
    · rw [if_pos hc]
      obtain ⟨rfl, rfl⟩ := hc
      exact ⟨⟨_, rfl⟩, fun _ => rfl⟩
    · rw [if_neg hc]
      refine ⟨(hI k1 j1 hk1K hj1N).1, fun hcond => (hI k1 j1 hk1K hj1N).2 ?_⟩
      rcases hcond with h | ⟨h1, h2⟩ | h | h
      · exact Or.inl h
      · refine Or.inr (Or.inl ⟨h1, ?_⟩)
        have : j1 ≠ i + 1 := fun e => hc ⟨h1, e⟩
        omega
      · exact Or.inr (Or.inr (Or.inl h))
      · exact Or.inr (Or.inr (Or.inr h))
  by_cases hle : w.getD i 0 ≤ (k : Int)
  · obtain ⟨kw, hkw⟩ : ∃ kw : Nat, (k : Int) - w.getD i 0 = (kw : Int) :=
      ⟨((k : Int) - w.getD i 0).toNat, by omega⟩
    have hwrap : wrap32 ((k : Int) - w.getD i 0) = (kw : Int) := by
      rw [wrap32_eq (by omega) (by omega)]; exact hkw
    have hB : O.read (kw : Int) (i : Int) = some (opt v w i (kw : Int)) := by
      rw [read_cast]
      exact (hI kw i (by omega) (by omega)).2 (Or.inl (by omega))
    have hb0 := opt_nonneg v w i (kw : Int)
    have hb1 := opt_le_total hv w i (kw : Int)
    have hv0 := getD_nonneg hv i
    have htot : total v (Finset.range (i + 1)) ≤ v.sum := by
      rw [← total_range_length v]
      exact total_range_le hv (by omega)
    rw [total_range_succ] at htot
    have hwrap2 : wrap32 (v.getD i 0 + opt v w i (kw : Int)) =
        v.getD i 0 + opt v w i (kw : Int) := wrap32_eq (by omega) (by omega)
    obtain ⟨O1, hwO, hO1⟩ :=
      write_some (max (opt v w i k) (v.getD i 0 + opt v w i (kw : Int))) hy
    refine ⟨O1, ?_, hfin O1 ?_⟩
    · simp only [fillCell, Nat.add_sub_cancel, hwi, hle, if_true, hcast, hA, hvi, hwrap, hB,
        hwrap2, hwO]
    · intro k1 j1
      rw [hO1 k1 j1, opt_succ_le v w i k hle, hkw]
  · obtain ⟨O1, hwO, hO1⟩ := write_some (opt v w i k) hy
    refine ⟨O1, ?_, hfin O1 ?_⟩
    · simp only [fillCell, Nat.add_sub_cancel, hwi, hle, if_false, hcast, hA, hwO]
    · intro k1 j1
      rw [hO1 k1 j1, opt_succ_gt v w i k hle]

theorem fillTable_inv {v w : List Int} {K N : Nat} (hK : (K : Int) + 1 < 2147483648)
    (hlen : v.length = w.length) (hN : N = v.length)
    (hv : ∀ a ∈ v, 0 ≤ a) (hw : ∀ a ∈ w, 0 < a) (hsum : v.sum < 2147483648) :
    ∃ O1, fillTable v w K N (List.replicate (K + 1) (List.replicate (N + 1) 0)) = some O1 ∧
      ∀ k j, k ≤ K → j ≤ N → readN O1 k j = some (opt v w j k) := by
  have hrow : ∀ k O, 1 ≤ k → k < 1 + K → TableInv v w K N k 1 O →
      ∃ O1, forLoop (fun j O2 => fillCell v w k j O2) 1 N O = some O1 ∧
        TableInv v w K N (k + 1) 1 O1 := by
    intro k O hk1 hkK hI
    obtain ⟨O1, hO1, hI1⟩ := forLoop_inv (fun j O2 => fillCell v w k j O2)
      (fun j O2 => TableInv v w K N k j O2) N 1 O
      (fun j O2 hj1 hjN hI2 =>
        fillCell_inv hK hlen hN hv hw hsum hk1 (by omega) hj1 (by omega) hI2) hI
    refine ⟨O1, hO1, ?_⟩
    intro k1 j1 hk1K hj1N
    refine ⟨(hI1 k1 j1 hk1K hj1N).1, fun hcond => (hI1 k1 j1 hk1K hj1N).2 ?_⟩
    rcases hcond with h | ⟨_, h2⟩ | h | h
    · by_cases hlt : k1 < k
      · exact Or.inl hlt
      · exact Or.inr (Or.inl ⟨by omega, by omega⟩)
    · exact Or.inr (Or.inr (Or.inr (by omega)))
    · exact Or.inr (Or.inr (Or.inl h))
    · exact Or.inr (Or.inr (Or.inr h))
  have h0 : TableInv v w K N 1 1 (List.replicate (K + 1) (List.replicate (N + 1) 0)) := by
    intro k j hkK hjN
    rw [readN_zero K N k j hkK hjN]
    refine ⟨⟨0, rfl⟩, fun hcond => ?_⟩
    have hz : k = 0 ∨ j = 0 := by
      rcases hcond with h | ⟨_, h2⟩ | h | h
      · left; omega
      · right; omega
      · left; exact h
      · right; exact h
    rcases hz with rfl | rfl
    · rw [opt_small hw v j (by omega) _ (by simp)]
    · simp [opt]
  obtain ⟨O1, hO1, hI1⟩ := forLoop_inv
    (fun k O1 => forLoop (fun j O2 => fillCell v w k j O2) 1 N O1)
    (fun k O2 => TableInv v w K N k 1 O2) K 1 _ hrow h0
  exact ⟨O1, hO1, fun k j hkK hjN => (hI1 k j hkK hjN).2 (Or.inl (by omega))⟩

/-! ## Backtracking -/

theorem chosen_zero (x : List Int) : chosen x 0 = ∅ := by
  simp [chosen]

theorem not_mem_chosen (x : List Int) (i : Nat) : i ∉ chosen x i := by
  simp [chosen]

theorem chosen_succ_of_one {x : List Int} {i : Nat} (h : x.getD i 0 = 1) :
    chosen x (i + 1) = insert i (chosen x i) := by
  unfold chosen
  rw [Finset.range_succ, Finset.filter_insert, if_pos h]

theorem chosen_succ_of_ne {x : List Int} {i : Nat} (h : x.getD i 0 ≠ 1) :
    chosen x (i + 1) = chosen x i := by
  unfold chosen
  rw [Finset.range_succ, Finset.filter_insert, if_neg h]

theorem getD_set_self (x : List Int) {i : Nat} (h : i < x.length) (a : Int) :
    (x.set i a).getD i 0 = a := by
  rw [List.getD_eq_getElem?_getD, List.getElem?_set_self h]; rfl

theorem getD_set_ne (x : List Int) {i t : Nat} (h : i ≠ t) (a : Int) :
    (x.set i a).getD t 0 = x.getD t 0 := by
  rw [List.getD_eq_getElem?_getD, List.getElem?_set_ne h, ← List.getD_eq_getElem?_getD]

theorem backtrack_spec {v w : List Int} {K N : Nat} (hK : (K : Int) + 1 < 2147483648)
    (hwlen : N ≤ w.length) (hw : ∀ a ∈ w, 0 < a) {O : Table}
    (hT : ∀ k j, k ≤ K → j ≤ N → readN O k j = some (opt v w j k)) :
    ∀ (i : Nat) (k : Int) (x : List Int), i ≤ N → 0 ≤ k → k ≤ K → x.length = N →
      (∀ t, t < i → x.getD t 0 = 0) →
      ∃ k1 x1, backtrack O w i k x = some (k1, x1) ∧ x1.length = N ∧
        (∀ t, i ≤ t → x1.getD t 0 = x.getD t 0) ∧ 0 ≤ k1 ∧
        total w (chosen x1 i) = k - k1 ∧ total v (chosen x1 i) = opt v w i k := by
  intro i
  induction i with
  | zero =>
    intro k x _ hk0 _ hx _
    exact ⟨k, x, rfl, hx, fun _ _ => rfl, hk0, by simp [chosen_zero, total],
      by simp [chosen_zero, total, opt]⟩
  | succ i ih =>
    intro k x hiN hk0 hkK hx hzero
    obtain ⟨kn, rfl⟩ : ∃ kn : Nat, k = (kn : Int) := ⟨k.toNat, by omega⟩
    have hknK : kn ≤ K := by omega
    have hA : O.read (kn : Int) ((i : Int) + 1) = some (opt v w (i + 1) kn) := by
      have e : (i : Int) + 1 = ((i + 1 : Nat) : Int) := by push_cast; rfl
      rw [e, read_cast]; exact hT kn (i + 1) hknK hiN
    have hB : O.read (kn : Int) (i : Int) = some (opt v w i kn) := by
      rw [read_cast]; exact hT kn i hknK (by omega)
    have hiw : i < w.length := by omega
    have hwi := getElem?_getD w hiw
    have hpos := getD_pos hw hiw
    by_cases hne : opt v w (i + 1) kn ≠ opt v w i kn
    · have hle : w.getD i 0 ≤ (kn : Int) := by
        by_contra hgt
        exact hne (opt_succ_gt v w i kn hgt)
      have hval : opt v w (i + 1) kn = v.getD i 0 + opt v w i ((kn : Int) - w.getD i 0) := by
        rw [opt_succ_le v w i kn hle] at hne ⊢
        rcases max_cases (opt v w i kn) (v.getD i 0 + opt v w i ((kn : Int) - w.getD i 0))
          with ⟨e, _⟩ | ⟨e, _⟩
        · exact absurd e hne
        · exact e
      have hwrap : wrap32 ((kn : Int) - w.getD i 0) = (kn : Int) - w.getD i 0 :=
        wrap32_eq (by omega) (by omega)
      have hix : i < x.length := by omega
      obtain ⟨k1, x1, hbt, hlen1, hkeep, hk1, hwt, hvt⟩ :=
        ih ((kn : Int) - w.getD i 0) (x.set i 1) (by omega) (by omega) (by omega)
          (by rw [List.length_set]; exact hx)
          (fun t ht => by rw [getD_set_ne x (by omega) 1]; exact hzero t (by omega))
      have hone : x1.getD i 0 = 1 := by
        rw [hkeep i (Nat.le_refl _), getD_set_self x hix 1]
      refine ⟨k1, x1, ?_, hlen1, ?_, hk1, ?_, ?_⟩
      · simp only [backtrack, hA, hB, ne_eq, hne, not_false_eq_true, if_true, hix, hwi, hwrap,
          hbt]
      · intro t ht
        rw [hkeep t (by omega), getD_set_ne x (by omega) 1]
      · rw [chosen_succ_of_one hone, total_insert w (not_mem_chosen x1 i), hwt]; ring
      · rw [chosen_succ_of_one hone, total_insert v (not_mem_chosen x1 i), hvt, hval]
    · have heq : opt v w (i + 1) kn = opt v w i kn := not_not.1 hne
      obtain ⟨k1, x1, hbt, hlen1, hkeep, hk1, hwt, hvt⟩ :=
        ih (kn : Int) x (by omega) hk0 hkK hx (fun t ht => hzero t (by omega))
      have hnone : x1.getD i 0 ≠ 1 := by
        rw [hkeep i (Nat.le_refl _), hzero i (by omega)]; decide
      refine ⟨k1, x1, ?_, hlen1, fun t ht => hkeep t (by omega), hk1, ?_, ?_⟩
      · simp only [backtrack, hA, hB, ne_eq, heq, not_true_eq_false, if_false, hbt]
      · rw [chosen_succ_of_ne hnone, hwt]
      · rw [chosen_succ_of_ne hnone, hvt, heq]

/-! ## The solver as a whole -/

theorem solveDP_spec {K : Int} {v w : List Int} (h : Valid K v w) :
    ∃ x, solveDynamicProgramming K v w = some (opt v w v.length K, x) ∧
      x.length = v.length ∧
      total w (chosen x v.length) ≤ K ∧
      total v (chosen x v.length) = opt v w v.length K := by
  obtain ⟨hK0, hK1, hlen, hN1, hv, hw, hsum⟩ := h
  obtain ⟨Kn, rfl⟩ : ∃ Kn : Nat, K = (Kn : Int) := ⟨K.toNat, by omega⟩
  have hwN : wrap32 (v.length : Int) = (v.length : Int) := wrap32_eq (by omega) (by omega)
  have hwK1 : wrap32 ((Kn : Int) + 1) = (Kn : Int) + 1 := wrap32_eq (by omega) (by omega)
  have hwN1 : wrap32 ((v.length : Int) + 1) = (v.length : Int) + 1 :=
    wrap32_eq (by omega) (by omega)
  have hcond : ¬ ((Kn : Int) + 1 < 0 ∨ (v.length : Int) < 0 ∨ (Kn : Int) < 0 ∨
      (v.length : Int) + 1 < 0) := by omega
  have hKt : ((Kn : Int) + 1).toNat = Kn + 1 := by omega
  have hNt : ((v.length : Int) + 1).toNat = v.length + 1 := by omega
  obtain ⟨O1, hfill, hT⟩ := fillTable_inv (K := Kn) (N := v.length) hK1 hlen rfl hv hw hsum
  have hread : O1.read (Kn : Int) (v.length : Int) = some (opt v w v.length Kn) := by
    rw [read_cast]; exact hT Kn v.length (Nat.le_refl _) (Nat.le_refl _)
  have hgetD : ∀ t, (List.replicate v.length (0 : Int)).getD t 0 = 0 := by
    intro t
    rw [List.getD_eq_getElem?_getD, List.getElem?_replicate]
    split <;> rfl
  obtain ⟨k1, x1, hbt, hlen1, _, hk1, hwt, hvt⟩ :=
    backtrack_spec (v := v) hK1 (by omega) hw hT v.length (Kn : Int)
      (List.replicate v.length 0) (Nat.le_refl _) (by omega) (by omega) (by simp)
      (fun t _ => hgetD t)
  refine ⟨x1, ?_, hlen1, by omega, hvt⟩
  unfold solveDynamicProgramming
  simp only [hwN, hwK1, hwN1]
  rw [if_neg hcond]
  simp only [hKt, hNt, Int.toNat_ofNat, hfill, hread, hbt]

theorem Valid.of_le {K1 K2 : Int} {v w : List Int} (h : Valid K2 v w) (h0 : 0 ≤ K1)
    (h12 : K1 ≤ K2) : Valid K1 v w := by
  obtain ⟨_, hK1, hlen, hN1, hv, hw, hsum⟩ := h
  exact ⟨h0, by omega, hlen, hN1, hv, hw, hsum⟩

theorem opt_mono_capacity {w : List Int} (hw : ∀ a ∈ w, 0 ≤ a) (v : List Int) (j : Nat)
    {k1 k2 : Int} (h0 : 0 ≤ k1) (h12 : k1 ≤ k2) : opt v w j k1 ≤ opt v w j k2 := by
  obtain ⟨S, hS, hwS, hvS⟩ := opt_attained v w j k1 h0
  rw [← hvS]
  exact opt_upper hw v j k2 S hS (by omega)

theorem opt_all_fit {K : Int} {v w : List Int} (h : Valid K v w) (hfit : w.sum ≤ K) :
    opt v w v.length K = v.sum := by
  obtain ⟨_, _, hlen, _, hv, hw, _⟩ := h
  apply le_antisymm
  · rw [← total_range_length v]
    exact opt_le_total hv w v.length K
  · have h1 := opt_upper (fun a ha => le_of_lt (hw a ha)) v v.length K
      (Finset.range v.length) (Finset.Subset.refl _)
      (by rw [hlen, total_range_length w]; exact hfit)
    rw [total_range_length v] at h1
    exact h1

theorem chosen_subset (x : List Int) (n : Nat) : chosen x n ⊆ Finset.range n :=
  Finset.filter_subset _ _

theorem chosen_eq_range {v x : List Int} {n : Nat} (hpos : ∀ i, i < n → 0 < v.getD i 0)
    (hv : ∀ a ∈ v, 0 ≤ a) (hsum : total v (chosen x n) = total v (Finset.range n)) :
    ∀ i, i < n → x.getD i 0 = 1 := by
  intro i hi
  by_contra hne
  have hnot : i ∉ chosen x n := by
    intro hmem
    exact hne (Finset.mem_filter.1 hmem).2
  have hsub : insert i (chosen x n) ⊆ Finset.range n := by
    intro t ht
    rcases Finset.mem_insert.1 ht with rfl | ht
    · exact Finset.mem_range.2 hi
    · exact chosen_subset x n ht
  have h1 := total_mono hv hsub
  rw [total_insert v hnot] at h1
  have h2 := hpos i hi
  omega

/-! ## Branch and bound on trivial frontiers -/

theorem heapPush_nil (x : Node) : heapPush [] x = [x] := by
  simp [heapPush, heapUp]

theorem heapPop_single (x : Node) : heapPop [x] = some (x, []) := by
  simp [heapPop, heapDown, Items.Swap]

theorem bbLoop_root_zero (K N : Int) (items : Items) (fuel : Nat) :
    bbLoop K N items (fuel + 2) [⟨0, 0, 0, 0⟩] 0 = .done 0 := by
  simp [bbLoop, heapPop_single, f32]

theorem estimate_root_nil (K : Int) : Node.estimate ⟨0, 0, 0, 0⟩ K 0 [] = some 0 := by
  unfold Node.estimate
  split
  · rfl
  · rfl

theorem bb_zero_capacity (fuel : Nat) (items : Items) :
    knapsackBranchAndBound (fuel + 2) 0 items = .done 0 := by
  have h : Node.estimate ⟨0, 0, 0, 0⟩ 0 (wrap32 items.length) items = some 0 := by
    simp [Node.estimate]
  simp only [knapsackBranchAndBound, h, heapPush_nil, bbLoop_root_zero]

theorem bb_no_items (fuel : Nat) (K : Int) :
    knapsackBranchAndBound (fuel + 2) K [] = .done 0 := by
  have h0 : wrap32 ((([] : Items).length : Nat) : Int) = 0 := by decide
  simp only [knapsackBranchAndBound, h0, estimate_root_nil, heapPush_nil, bbLoop_root_zero]

/-! ## The solver at capacity 0 -/

theorem backtrack_zero_row (w : List Int) (N : Nat) :
    ∀ (i : Nat) (x : List Int), i ≤ N →
      backtrack (List.replicate (0 + 1) (List.replicate (N + 1) 0)) w i 0 x = some (0, x) := by
  intro i
  induction i with
  | zero => intro x _; rfl
  | succ i ih =>
    intro x hi
    have hA : Table.read (List.replicate (0 + 1) (List.replicate (N + 1) 0)) 0 ((i : Int) + 1)
        = some 0 := by
      have e : (i : Int) + 1 = ((i + 1 : Nat) : Int) := by push_cast; rfl
      have e0 : (0 : Int) = ((0 : Nat) : Int) := rfl
      rw [e, e0, read_cast]; exact readN_zero 0 N 0 (i + 1) (Nat.le_refl _) hi
    have hB : Table.read (List.replicate (0 + 1) (List.replicate (N + 1) 0)) 0 (i : Int)
        = some 0 := by
      have e0 : (0 : Int) = ((0 : Nat) : Int) := rfl
      rw [e0, read_cast]; exact readN_zero 0 N 0 i (Nat.le_refl _) (by omega)
    simp only [backtrack, hA, hB, ne_eq, not_true_eq_false, if_false]
    exact ih x (by omega)

theorem solveDP_zero_capacity (v w : List Int) (hN : (v.length : Int) + 1 < 2147483648) :
    solveDynamicProgramming 0 v w = some (0, List.replicate v.length 0) := by
  have key : ∀ Kn : Nat, Kn = 0 →
      solveDynamicProgramming (Kn : Int) v w = some (0, List.replicate v.length 0) := by
    intro Kn hKn
    have hwN : wrap32 (v.length : Int) = (v.length : Int) := wrap32_eq (by omega) (by omega)
    have hwN1 : wrap32 ((v.length : Int) + 1) = (v.length : Int) + 1 :=
      wrap32_eq (by omega) (by omega)
    have hwK1 : wrap32 ((Kn : Int) + 1) = (Kn : Int) + 1 := wrap32_eq (by omega) (by omega)
    have hcond : ¬ ((Kn : Int) + 1 < 0 ∨ (v.length : Int) < 0 ∨ (Kn : Int) < 0 ∨
        (v.length : Int) + 1 < 0) := by omega
    have hKt : ((Kn : Int) + 1).toNat = Kn + 1 := by omega
    have hNt : ((v.length : Int) + 1).toNat = v.length + 1 := by omega
    have hfill : fillTable v w Kn v.length
        (List.replicate (Kn + 1) (List.replicate (v.length + 1) 0)) =
        some (List.replicate (Kn + 1) (List.replicate (v.length + 1) 0)) := by
      subst hKn; rfl
    have hread : Table.read (List.replicate (Kn + 1) (List.replicate (v.length + 1) 0))
        (Kn : Int) (v.length : Int) = some 0 := by
      rw [read_cast]
      exact readN_zero Kn v.length Kn v.length (Nat.le_refl _) (Nat.le_refl _)
    have hbt : backtrack (List.replicate (Kn + 1) (List.replicate (v.length + 1) 0)) w
        v.length (Kn : Int) (List.replicate v.length 0) =
        some (0, List.replicate v.length 0) := by
      subst hKn
      exact backtrack_zero_row w v.length v.length (List.replicate v.length 0) (Nat.le_refl _)
    unfold solveDynamicProgramming
    simp only [hwN, hwK1, hwN1]
    rw [if_neg hcond]
    simp only [hKt, hNt, Int.toNat_ofNat, hfill, hread, hbt]
  exact key 0 rfl

/-! ## Claims about the dynamic-programming solver -/

/-- C1: on every valid instance `solveDynamicProgramming` returns, and the
value it reports is the maximum total value over all sets of items whose total
weight is at most `K`: it is the value of one such set and bounds the value of
every such set. -/
theorem dp_value_is_maximum (K : Int) (v w : List Int) (h : Valid K v w) :
    ∃ val x, solveDynamicProgramming K v w = some (val, x) ∧
      (∃ S : Finset Nat, S ⊆ Finset.range v.length ∧ total w S ≤ K ∧ total v S = val) ∧
      (∀ S : Finset Nat, S ⊆ Finset.range v.length → total w S ≤ K → total v S ≤ val) := by
  obtain ⟨x, hx, _, _, _⟩ := solveDP_spec h
  refine ⟨opt v w v.length K, x, hx, opt_attained v w v.length K h.1, ?_⟩
  intro S hS hwS
  exact opt_upper (fun a ha => le_of_lt (h.2.2.2.2.2.1 a ha)) v v.length K S hS hwS

/-- Witness of `dp_value_is_maximum` on the instance values `[60, 100, 120]`,
weights `[10, 20, 30]`, capacity 50. -/
theorem dp_value_is_maximum_witness :
    Valid 50 [60, 100, 120] [10, 20, 30] ∧
    ∃ val x, solveDynamicProgramming 50 [60, 100, 120] [10, 20, 30] = some (val, x) ∧
      (∃ S : Finset Nat, S ⊆ Finset.range [60, 100, 120].length ∧
        total [10, 20, 30] S ≤ 50 ∧ total [60, 100, 120] S = val) ∧
      (∀ S : Finset Nat, S ⊆ Finset.range [60, 100, 120].length →
        total [10, 20, 30] S ≤ 50 → total [60, 100, 120] S ≤ val) :=
  ⟨by decide, dp_value_is_maximum 50 [60, 100, 120] [10, 20, 30] (by decide)⟩

/-- C2: on every valid instance the inclusion vector `x` reconstructed by the
backtracking has one entry per item, the weights of the items marked 1 sum to
at most `K`, and their values sum to the reported value. -/
theorem dp_vector_feasible_and_optimal (K : Int) (v w : List Int) (h : Valid K v w) :
    ∃ val x, solveDynamicProgramming K v w = some (val, x) ∧ x.length = v.length ∧
      total w (chosen x v.length) ≤ K ∧ total v (chosen x v.length) = val := by
  obtain ⟨x, hx, hlen, hwt, hvt⟩ := solveDP_spec h
  exact ⟨opt v w v.length K, x, hx, hlen, hwt, hvt⟩

/-- Witness of `dp_vector_feasible_and_optimal` on a two-item instance. -/
theorem dp_vector_feasible_and_optimal_witness :
    Valid 7 [3, 4] [5, 6] ∧
    ∃ val x, solveDynamicProgramming 7 [3, 4] [5, 6] = some (val, x) ∧
      x.length = [3, 4].length ∧
      total [5, 6] (chosen x [3, 4].length) ≤ 7 ∧ total [3, 4] (chosen x [3, 4].length) = val :=
  ⟨by decide, dp_vector_feasible_and_optimal 7 [3, 4] [5, 6] (by decide)⟩

/-- C6: for a fixed item set and capacities `0 ≤ K1 ≤ K2`, the value reported
with capacity `K1` is at most the value reported with capacity `K2`. -/
theorem dp_monotone_in_capacity (K1 K2 : Int) (v w : List Int) (h0 : 0 ≤ K1) (h12 : K1 ≤ K2)
    (h : Valid K2 v w) :
    ∃ val1 x1 val2 x2, solveDynamicProgramming K1 v w = some (val1, x1) ∧
      solveDynamicProgramming K2 v w = some (val2, x2) ∧ val1 ≤ val2 := by
  obtain ⟨x1, hx1, _, _, _⟩ := solveDP_spec (h.of_le h0 h12)
  obtain ⟨x2, hx2, _, _, _⟩ := solveDP_spec h
  exact ⟨_, x1, _, x2, hx1, hx2,
    opt_mono_capacity (fun a ha => le_of_lt (h.2.2.2.2.2.1 a ha)) v v.length h0 h12⟩

/-- Witness of `dp_monotone_in_capacity` with capacities 4 and 9. -/
theorem dp_monotone_in_capacity_witness :
    (0 : Int) ≤ 4 ∧ (4 : Int) ≤ 9 ∧ Valid 9 [10, 7] [5, 4] ∧
    ∃ val1 x1 val2 x2, solveDynamicProgramming 4 [10, 7] [5, 4] = some (val1, x1) ∧
      solveDynamicProgramming 9 [10, 7] [5, 4] = some (val2, x2) ∧ val1 ≤ val2 :=
  ⟨by decide, by decide, by decide,
    dp_monotone_in_capacity 4 9 [10, 7] [5, 4] (by decide) (by decide) (by decide)⟩

/-- C7: on values `[60, 100, 120]`, weights `[10, 20, 30]`, capacity 50 the
solver reports value 220 and the inclusion vector `[0, 1, 1]`. -/
theorem dp_scenario_three_items :
    solveDynamicProgramming 50 [60, 100, 120] [10, 20, 30] = some (220, [0, 1, 1]) := by
  decide

/-- C9: when the capacity is at least the sum of all weights, the reported
value is the sum of all values. -/
theorem dp_all_fit_value (K : Int) (v w : List Int) (h : Valid K v w) (hfit : w.sum ≤ K) :
    ∃ x, solveDynamicProgramming K v w = some (v.sum, x) := by
  obtain ⟨x, hx, _, _, _⟩ := solveDP_spec h
  rw [opt_all_fit h hfit] at hx
  exact ⟨x, hx⟩

/-- Witness of `dp_all_fit_value`: three items of total weight 60, capacity 60. -/
theorem dp_all_fit_value_witness :
    Valid 60 [60, 100, 120] [10, 20, 30] ∧ ([10, 20, 30] : List Int).sum ≤ 60 ∧
    ∃ x, solveDynamicProgramming 60 [60, 100, 120] [10, 20, 30] =
      some (([60, 100, 120] : List Int).sum, x) :=
  ⟨by decide, by decide, dp_all_fit_value 60 [60, 100, 120] [10, 20, 30] (by decide) (by decide)⟩

/-- C10, as stated, fails: the single item of value 0 and weight 1 fits into
capacity 1, yet the reconstructed vector is `[0]`, not `[1]`. -/
theorem dp_all_fit_vector_counterexample :
    Valid 1 [0] [1] ∧ ([1] : List Int).sum ≤ 1 ∧
    solveDynamicProgramming 1 [0] [1] = some (0, [0]) ∧
    ([0] : List Int) ≠ List.replicate ([0] : List Int).length 1 := by
  decide

/-- C10, amended: when the capacity is at least the sum of all weights and
every value is strictly positive, the reconstructed vector is all 1s. -/
theorem dp_all_fit_vector (K : Int) (v w : List Int) (h : Valid K v w) (hfit : w.sum ≤ K)
    (hpos : ∀ a ∈ v, 0 < a) :
    ∃ val, solveDynamicProgramming K v w = some (val, List.replicate v.length 1) := by
  obtain ⟨x, hx, hlen, _, hvt⟩ := solveDP_spec h
  have hone : ∀ i, i < v.length → x.getD i 0 = 1 := by
    apply chosen_eq_range (v := v) (fun i hi => getD_pos hpos hi) h.2.2.2.2.1
    rw [hvt, opt_all_fit h hfit, total_range_length v]
  have hrep : x = List.replicate v.length 1 := by
    rw [List.eq_replicate_iff]
    refine ⟨hlen, fun b hb => ?_⟩
    obtain ⟨i, hi, rfl⟩ := List.getElem_of_mem hb
    rw [← hone i (by omega), List.getD_eq_getElem x 0 hi]
  rw [hrep] at hx
  exact ⟨_, hx⟩

/-- Witness of `dp_all_fit_vector`: three items with positive values, capacity 60. -/
theorem dp_all_fit_vector_witness :
    Valid 60 [60, 100, 120] [10, 20, 30] ∧ ([10, 20, 30] : List Int).sum ≤ 60 ∧
    (∀ a ∈ ([60, 100, 120] : List Int), 0 < a) ∧
    ∃ val, solveDynamicProgramming 60 [60, 100, 120] [10, 20, 30] =
      some (val, List.replicate ([60, 100, 120] : List Int).length 1) :=
  ⟨by decide, by decide, by decide,
    dp_all_fit_vector 60 [60, 100, 120] [10, 20, 30] (by decide) (by decide) (by decide)⟩

/-! ## Claims about branch and bound -/

/-- C3 (evaluation at the failing input): on the single item of value 10 and
weight 5 with capacity 10, `solveBranchAndBound` reports 0 for every iteration
budget of at least two, while `solveDynamicProgramming` reports 10 with the
vector `[1]`. -/
theorem bb_differs_from_dp_single_item :
    (∀ fuel : Nat, solveBranchAndBound (fuel + 2) 10 [10] [5] = .done 0) ∧
    solveDynamicProgramming 10 [10] [5] = some (10, [1]) :=
  ⟨fun _ => rfl, by decide⟩

/-- C4 (evaluation at the failing input): for the single item of value 10 and
weight 5 with capacity 10, the item sequence handed to the search is that one
item, the root bound computed by `knapsackBranchAndBound` is 0, and the set
holding the item has weight 5 and value 10. -/
theorem bb_root_bound_below_optimum :
    (mkItems [10] [5]).map sortSort = some [⟨0, 10, 5, -1⟩] ∧
    Node.estimate ⟨0, 0, 0, 0⟩ 10 (wrap32 (([⟨0, 10, 5, -1⟩] : Items).length : Nat))
      [⟨0, 10, 5, -1⟩] = some 0 ∧
    total [5] {0} ≤ 10 ∧ total [10] {0} = 10 := by
  refine ⟨by decide, by decide, ?_, ?_⟩ <;> simp [total]

/-- C5: with capacity 0 (any item sequence) and with no items (any capacity
`K ≥ 0`), `knapsackBranchAndBound` ends with `maxvalue = 0` for every iteration
budget of at least two, and `solveDynamicProgramming` reports the value 0
(`K + 1` and `N + 1` being representable as `int32`). -/
theorem zero_capacity_or_no_items (fuel : Nat) (K : Int) (v w : List Int) (items : Items)
    (hK0 : 0 ≤ K) (hK1 : K + 1 < 2147483648) (hN : (v.length : Int) + 1 < 2147483648) :
    knapsackBranchAndBound (fuel + 2) 0 items = .done 0 ∧
    knapsackBranchAndBound (fuel + 2) K [] = .done 0 ∧
    solveDynamicProgramming 0 v w = some (0, List.replicate v.length 0) ∧
    solveDynamicProgramming K [] [] = some (0, []) := by
  refine ⟨bb_zero_capacity fuel items, bb_no_items fuel K, solveDP_zero_capacity v w hN, ?_⟩
  have hV : Valid K [] [] := ⟨hK0, hK1, rfl, by decide, by simp, by simp, by decide⟩
  obtain ⟨x, hx, hlen, _, _⟩ := solveDP_spec hV
  have hx0 : x = [] := List.length_eq_zero.1 hlen
  rw [hx0] at hx
  exact hx

/-- Witness of `zero_capacity_or_no_items`: capacity 7 without items, and
capacity 0 with three items. -/
theorem zero_capacity_or_no_items_witness :
    (0 : Int) ≤ 7 ∧ (7 : Int) + 1 < 2147483648 ∧
    (([60, 100, 120] : List Int).length : Int) + 1 < 2147483648 ∧
    knapsackBranchAndBound (0 + 2) 0 [⟨0, 60, 10, -1⟩] = .done 0 ∧
    knapsackBranchAndBound (0 + 2) 7 [] = .done 0 ∧
    solveDynamicProgramming 0 [60, 100, 120] [10, 20, 30] =
      some (0, List.replicate ([60, 100, 120] : List Int).length 0) ∧
    solveDynamicProgramming 7 [] [] = some (0, []) :=
  ⟨by decide, by decide, by decide,
    zero_capacity_or_no_items 0 7 [60, 100, 120] [10, 20, 30] [⟨0, 60, 10, -1⟩]
      (by decide) (by decide) (by decide)⟩

/-- C8: on the single item of value 10 and weight 5 with capacity 4,
`solveBranchAndBound` reports 0 for every iteration budget of at least two, and
`solveDynamicProgramming` reports 0 with the vector `[0]`. -/
theorem scenario_item_too_heavy :
    (∀ fuel : Nat, solveBranchAndBound (fuel + 2) 4 [10] [5] = .done 0) ∧
    solveDynamicProgramming 4 [10] [5] = some (0, [0]) :=
  ⟨fun _ => rfl, by decide⟩

/-! ## The loop of branch and bound as a step function -/

theorem bbLoop_succ (K N : Int) (items : Items) (fuel : Nat) (pq : Items) (m : Int) :
    bbLoop K N items (fuel + 1) pq m =
      if pq.length = 0 then .done m
      else
        match bbStep K N items (pq, m) with
        | none => .crash
        | some s1 => bbLoop K N items fuel s1.1 s1.2 := by
  rw [bbLoop]
  by_cases h0 : pq.length = 0
  · simp only [h0, if_true]
  · simp only [h0, if_false, bbStep, includeChild]
    cases heapPop pq with
    | none => rfl
    | some r =>
      obtain ⟨v, pq1⟩ := r
      simp only
      by_cases hb : v.bound > f32 m
      · simp only [hb, if_true]
        cases getItem items (wrap32 (v.index + 1)) with
        | none => rfl
        | some it =>
          simp only
          cases Node.estimate ⟨wrap32 (v.index + 1), wrap32 (v.value + it.value),
            wrap32 (v.weight + it.weight), 0⟩ K N items with
          | none => rfl
          | some b1 =>
            simp only
            cases Node.estimate ⟨wrap32 (v.index + 1), v.value, v.weight, b1⟩ K N items with
            | none => rfl
            | some b2 => rfl
      · simp only [hb, if_false]

theorem knapsackBranchAndBound_eq (fuel : Nat) (K : Int) (items : Items) :
    knapsackBranchAndBound fuel K items =
      match bbInit K items with
      | none => .crash
      | some s0 => bbLoop K (wrap32 items.length) items fuel s0.1 s0.2 := by
  unfold knapsackBranchAndBound bbInit
  cases h : Node.estimate ⟨0, 0, 0, 0⟩ K (wrap32 items.length) items with
  | none => simp only [h]
  | some b => simp only [h]

/-! ## Rounding to `float32` is monotone -/

theorem roundNE_ge_div (A B : Nat) : A / B ≤ roundNE A B := by
  unfold roundNE
  simp only
  split_ifs <;> omega

theorem roundNE_le_div_succ (A B : Nat) : roundNE A B ≤ A / B + 1 := by
  unfold roundNE
  simp only
  split_ifs <;> omega

theorem roundNE_of_dvd (A B : Nat) (hB : 0 < B) (h : A % B = 0) : roundNE A B = A / B := by
  unfold roundNE
  simp only
  rw [h]
  simp [hB]

theorem roundNE_mul_le {A B m : Nat} (hB : 0 < B) (h : m * B ≤ A) :
    m * B ≤ roundNE A B * B :=
  Nat.mul_le_mul_right B (le_trans ((Nat.le_div_iff_mul_le hB).2 h) (roundNE_ge_div A B))

theorem roundNE_mul_ge {A B m : Nat} (hB : 0 < B) (h : A ≤ m * B) :
    roundNE A B * B ≤ m * B := by
  apply Nat.mul_le_mul_right
  by_cases hr : A % B = 0
  · rw [roundNE_of_dvd A B hB hr]
    exact Nat.div_le_of_le_mul (by rw [Nat.mul_comm]; exact h)
  · have h1 : A / B < m := by
      rw [Nat.div_lt_iff_lt_mul hB]
      have h2 := Nat.div_add_mod A B
      have h3 : A ≠ m * B := by
        intro e
        apply hr
        rw [e]
        exact Nat.mul_mod_left m B
      omega
    have := roundNE_le_div_succ A B
    omega

theorem roundNE_mono {A1 A2 : Nat} (B : Nat) (h : A1 ≤ A2) :
    roundNE A1 B ≤ roundNE A2 B := by
  have hd : A1 / B ≤ A2 / B := Nat.div_le_div_right h
  by_cases hlt : A1 / B < A2 / B
  · have h1 := roundNE_le_div_succ A1 B
    have h2 := roundNE_ge_div A2 B
    omega
  · have heq : A1 / B = A2 / B := by omega
    have e1 := Nat.div_add_mod A1 B
    have e2 := Nat.div_add_mod A2 B
    rw [heq] at e1
    have hr : A1 % B ≤ A2 % B := by omega
    unfold roundNE
    simp only
    rw [heq]
    split_ifs <;> omega

theorem pow_split (e : Nat) (he : 23 ≤ e) : 2 ^ 23 * 2 ^ (e - 23) = 2 ^ e := by
  rw [← Nat.pow_add]
  congr 1
  omega

theorem pow_split_succ (e : Nat) (he : 23 ≤ e) : 2 ^ 24 * 2 ^ (e - 23) = 2 ^ (e + 1) := by
  rw [← Nat.pow_add]
  congr 1
  omega

theorem log2_ge_24 {a : Nat} (ha : ¬ a < 16777216) : 24 ≤ Nat.log2 a := by
  have h0 : a ≠ 0 := by omega
  rw [Nat.le_log2 h0]
  have : (2 : Nat) ^ 24 = 16777216 := by norm_num
  omega

theorem round24_ge_pow {b : Nat} (hb : ¬ b < 16777216) :
    2 ^ Nat.log2 b ≤ roundNE b (2 ^ (Nat.log2 b - 23)) * 2 ^ (Nat.log2 b - 23) := by
  have h0 : b ≠ 0 := by omega
  have he := log2_ge_24 hb
  have hq : 0 < 2 ^ (Nat.log2 b - 23) := Nat.pow_pos (by decide)
  have h1 : 2 ^ 23 * 2 ^ (Nat.log2 b - 23) ≤ b := by
    rw [pow_split _ (by omega)]
    exact Nat.log2_self_le h0
  have h2 := roundNE_mul_le hq h1
  rw [pow_split _ (by omega)] at h2
  exact h2

theorem round24_le_pow {a : Nat} (ha : ¬ a < 16777216) :
    roundNE a (2 ^ (Nat.log2 a - 23)) * 2 ^ (Nat.log2 a - 23) ≤ 2 ^ (Nat.log2 a + 1) := by
  have he := log2_ge_24 ha
  have hq : 0 < 2 ^ (Nat.log2 a - 23) := Nat.pow_pos (by decide)
  have h1 : a ≤ 2 ^ 24 * 2 ^ (Nat.log2 a - 23) := by
    rw [pow_split_succ _ (by omega)]
    exact Nat.le_of_lt Nat.lt_log2_self
  have h2 := roundNE_mul_ge hq h1
  rw [pow_split_succ _ (by omega)] at h2
  exact h2

theorem round24_mono {a b : Nat} (h : a ≤ b) : round24 a ≤ round24 b := by
  unfold round24
  by_cases hb : b < 16777216
  · have ha : a < 16777216 := by omega
    simp only [ha, hb, if_true]
    exact h
  · by_cases ha : a < 16777216
    · simp only [ha, hb, if_true, if_false]
      have h1 := round24_ge_pow hb
      have h2 : 2 ^ 24 ≤ 2 ^ Nat.log2 b := Nat.pow_le_pow_right (by decide) (log2_ge_24 hb)
      have : (2 : Nat) ^ 24 = 16777216 := by norm_num
      omega
    · simp only [ha, hb, if_false]
      have ha0 : a ≠ 0 := by omega
      have hb0 : b ≠ 0 := by omega
      have hle : Nat.log2 a ≤ Nat.log2 b := by
        rw [Nat.le_log2 hb0]
        exact le_trans (Nat.log2_self_le ha0) h
      by_cases heq : Nat.log2 a = Nat.log2 b
      · rw [heq]
        exact Nat.mul_le_mul_right _ (roundNE_mono _ h)
      · have h1 := round24_le_pow ha
        have h2 := round24_ge_pow hb
        have h3 : 2 ^ (Nat.log2 a + 1) ≤ 2 ^ Nat.log2 b :=
          Nat.pow_le_pow_right (by decide) (by omega)
        omega

theorem f32_of_nonneg {x : Int} (h : 0 ≤ x) : f32 x = (round24 x.natAbs : Int) := by
  unfold f32 round24
  by_cases hs : x.natAbs < 16777216
  · simp only [hs, if_true]
    exact (Int.natAbs_of_nonneg h).symm
  · simp only [hs, if_false]
    have hpos : 0 < x := by omega
    rw [Int.sign_eq_one_of_pos hpos, one_mul]

theorem f32_neg (x : Int) : f32 (-x) = -f32 x := by
  unfold f32
  rw [Int.natAbs_neg]
  by_cases hs : x.natAbs < 16777216
  · simp only [hs, if_true]
  · simp only [hs, if_false, Int.sign_neg, neg_mul]

theorem f32_zero : f32 0 = 0 := by decide

theorem f32_nonneg {x : Int} (h : 0 ≤ x) : 0 ≤ f32 x := by
  rw [f32_of_nonneg h]
  exact Int.ofNat_nonneg _

theorem f32_mono {a b : Int} (h : a ≤ b) : f32 a ≤ f32 b := by
  by_cases ha : 0 ≤ a
  · rw [f32_of_nonneg ha, f32_of_nonneg (le_trans ha h)]
    exact Int.ofNat_le.2 (round24_mono (by omega))
  · by_cases hb : 0 ≤ b
    · have h1 : f32 a = -f32 (-a) := by rw [f32_neg, neg_neg]
      have h2 := f32_nonneg (show 0 ≤ -a by omega)
      have h3 := f32_nonneg hb
      omega
    · have h1 : f32 a = -f32 (-a) := by rw [f32_neg, neg_neg]
      have h2 : f32 b = -f32 (-b) := by rw [f32_neg, neg_neg]
      rw [h1, h2, f32_of_nonneg (show 0 ≤ -a by omega), f32_of_nonneg (show 0 ≤ -b by omega)]
      have := round24_mono (show (-b).natAbs ≤ (-a).natAbs by omega)
      omega

/-! ## Heap operations permute the frontier -/

theorem Swap_perm (pq : Items) (i j : Nat) : (pq.Swap i j).Perm pq := by
  unfold Items.Swap
  cases hi : pq[i]? with
  | none => exact List.Perm.refl _
  | some a =>
    cases hj : pq[j]? with
    | none => exact List.Perm.refl _
    | some b =>
      obtain ⟨hil, hia⟩ := List.getElem?_eq_some.1 hi
      obtain ⟨hjl, hjb⟩ := List.getElem?_eq_some.1 hj
      simp only
      rw [List.perm_iff_count]
      intro c
      have hjl2 : j < (pq.set i b).length := by rw [List.length_set]; exact hjl
      rw [List.count_set _ _ _ _ hjl2, List.count_set _ _ _ _ hil]
      have hget : (pq.set i b)[j] = b := by
        rw [List.getElem_set]
        split
        · rfl
        · exact hjb
      rw [hget, hia]
      have hcount := List.boole_getElem_le_count c pq i hil
      rw [hia] at hcount
      generalize (if (a == c) = true then 1 else 0) = A at hcount ⊢
      generalize (if (b == c) = true then 1 else 0) = B
      omega

theorem heapUp_perm : ∀ (fuel : Nat) (pq : Items) (j : Nat), (heapUp fuel pq j).Perm pq := by
  intro fuel
  induction fuel with
  | zero => intro pq j; exact List.Perm.refl _
  | succ fuel ih =>
    intro pq j
    unfold heapUp
    simp only
    split
    · exact List.Perm.refl _
    · exact (ih _ _).trans (Swap_perm pq _ _)

theorem heapDown_perm (n : Nat) :
    ∀ (fuel : Nat) (pq : Items) (i : Nat), (heapDown n fuel pq i).Perm pq := by
  intro fuel
  induction fuel with
  | zero => intro pq i; exact List.Perm.refl _
  | succ fuel ih =>
    intro pq i
    unfold heapDown
    simp only
    split_ifs <;>
      first
        | exact List.Perm.refl _
        | exact (ih _ _).trans (Swap_perm pq _ _)

theorem heapPush_perm (pq : Items) (x : Node) : (heapPush pq x).Perm (x :: pq) := by
  unfold heapPush
  exact (heapUp_perm _ _ _).trans (List.perm_append_singleton x pq)

theorem heapPop_perm {pq : Items} (h : pq ≠ []) :
    ∃ v pq1, heapPop pq = some (v, pq1) ∧ (v :: pq1).Perm pq := by
  have hperm : (heapDown (pq.length - 1) (pq.length - 1) (pq.Swap 0 (pq.length - 1)) 0).Perm pq :=
    (heapDown_perm _ _ _ _).trans (Swap_perm pq _ _)
  have hne : heapDown (pq.length - 1) (pq.length - 1) (pq.Swap 0 (pq.length - 1)) 0 ≠ [] := by
    intro e
    rw [e] at hperm
    exact h (List.Perm.nil_eq hperm).symm
  refine ⟨(heapDown (pq.length - 1) (pq.length - 1) (pq.Swap 0 (pq.length - 1)) 0).getLast hne,
    (heapDown (pq.length - 1) (pq.length - 1) (pq.Swap 0 (pq.length - 1)) 0).dropLast, ?_, ?_⟩
  · unfold heapPop
    simp only [List.getLast?_eq_getLast _ hne]
  · refine List.Perm.trans ?_ hperm
    refine (List.perm_append_singleton _ _).symm.trans ?_
    rw [List.dropLast_append_getLast hne]

/-! ## The bound `estimate` on nodes of the search -/

theorem getItem_some {items : Items} {i : Int} (h0 : 0 ≤ i) (h1 : i < items.length) :
    ∃ it, getItem items i = some it ∧ it ∈ items ∧ items[i.toNat]? = some it := by
  have hlt : i.toNat < items.length := by omega
  refine ⟨items[i.toNat], ?_, List.getElem_mem hlt, List.getElem?_eq_getElem hlt⟩
  unfold getItem
  rw [if_neg (by omega), List.getElem?_eq_getElem hlt]

theorem estimateLoop_some (K : Int) (items : Items) :
    ∀ (fuel : Nat) (j tw r : Int), 0 ≤ j →
      ∃ k tw1 r1, estimateLoop K items.length items fuel j tw r = some (k, tw1, r1) ∧ j ≤ k := by
  intro fuel
  induction fuel with
  | zero => intro j tw r _; exact ⟨j, tw, r, rfl, le_refl _⟩
  | succ fuel ih =>
    intro j tw r hj
    unfold estimateLoop
    by_cases hlt : j < (items.length : Int)
    · obtain ⟨it, hit, _, _⟩ := getItem_some hj hlt
      simp only [hlt, if_true, hit]
      split
      · obtain ⟨k, tw1, r1, hk, hle⟩ := ih (j + 1) (wrap32 (tw + it.weight))
          (f32 (r + f32 it.value)) (by omega)
        exact ⟨k, tw1, r1, hk, by omega⟩
      · exact ⟨j, tw, r, rfl, le_refl _⟩
    · simp only [hlt, if_false]
      exact ⟨j, tw, r, rfl, le_refl _⟩

theorem estimateLoop_stop (K N : Int) (items : Items) (fuel : Nat) (j tw r : Int) (h : N ≤ j) :
    estimateLoop K N items fuel j tw r = some (j, tw, r) := by
  cases fuel with
  | zero => rfl
  | succ fuel =>
    unfold estimateLoop
    rw [if_neg (by omega)]

theorem estimate_of_heavy (node : Node) (K N : Int) (items : Items) (h : K ≤ node.weight) :
    Node.estimate node K N items = some 0 := by
  unfold Node.estimate
  rw [if_pos (by omega)]

theorem estimate_of_last (node : Node) (K N : Int) (items : Items) (h : node.weight < K)
    (h0 : 0 ≤ node.index) (h1 : node.index + 1 < 2147483648) (hN : N ≤ node.index + 1) :
    Node.estimate node K N items = some (f32 node.value) := by
  unfold Node.estimate
  rw [if_neg (by omega)]
  have hw : wrap32 (node.index + 1) = node.index + 1 := wrap32_eq (by omega) h1
  simp only [hw]
  rw [estimateLoop_stop K N items _ _ _ _ hN]
  simp only
  rw [if_neg (by omega)]

theorem estimate_some {K : Int} {items : Items} (hw : ∀ it ∈ items, it.weight ≠ 0)
    (node : Node) (h0 : 0 ≤ node.index) (h1 : node.index + 1 < 2147483648) :
    ∃ b, Node.estimate node K items.length items = some b := by
  unfold Node.estimate
  by_cases hh : node.weight ≥ K
  · rw [if_pos hh]; exact ⟨0, rfl⟩
  · rw [if_neg hh]
    have hwr : wrap32 (node.index + 1) = node.index + 1 := wrap32_eq (by omega) h1
    simp only [hwr]
    obtain ⟨k, tw1, r1, hk, hle⟩ := estimateLoop_some K items
      (((items.length : Int) - (node.index + 1)).toNat) (node.index + 1) node.weight
      (f32 node.value) (by omega)
    rw [hk]
    simp only
    by_cases hlt : k < (items.length : Int)
    · obtain ⟨it, hit, hmem, _⟩ := getItem_some (show 0 ≤ k by omega) hlt
      simp only [hlt, if_true, hit, hw it hmem, if_false]
      exact ⟨_, rfl⟩
    · simp only [hlt, if_false]
      exact ⟨_, rfl⟩

/-! ## One iteration of the search under the invariant -/

theorem mem_pushIf {pq : Items} {m : Int} {x n : Node} (h : n ∈ pushIf pq m x) :
    n ∈ pq ∨ (n = x ∧ x.bound > f32 m) := by
  unfold pushIf at h
  split at h
  · rename_i hb
    rcases List.mem_cons.1 ((heapPush_perm pq x).mem_iff.1 h) with e | hmem
    · exact Or.inr ⟨e, hb⟩
    · exact Or.inl hmem
  · exact Or.inl h

theorem bbStep_cases {K : Int} {items : Items} (hlen : (items.length : Int) < 2147483648)
    (hw : ∀ it ∈ items, it.weight ≠ 0) {s : Items × Int}
    (hI : FrontierInv K items.length s) (hne : s.1 ≠ []) :
    ∃ v pq1, heapPop s.1 = some (v, pq1) ∧ (v :: pq1).Perm s.1 ∧
      ((v.bound ≤ f32 s.2 ∧ bbStep K items.length items s = some (pq1, s.2)) ∨
       (f32 s.2 < v.bound ∧ ∃ it b1 b2,
          v.index + 1 < items.length ∧ wrap32 (v.index + 1) = v.index + 1 ∧
          items[(v.index + 1).toNat]? = some it ∧
          includeChild v items = some (incNode v it) ∧
          Node.estimate (incNode v it) K items.length items = some b1 ∧
          Node.estimate (excNode v b1) K items.length items = some b2 ∧
          bbStep K items.length items s =
            some (pushIf (pushIf pq1 (newMax K s.2 (incNode v it)) (setBound (incNode v it) b1))
              (newMax K s.2 (incNode v it)) (excNode v b2), newMax K s.2 (incNode v it)))) := by
  obtain ⟨v, pq1, hpop, hperm⟩ := heapPop_perm hne
  refine ⟨v, pq1, hpop, hperm, ?_⟩
  have hv : v ∈ s.1 := hperm.mem_iff.1 (List.mem_cons_self _ _)
  obtain ⟨hm0, hall⟩ := hI
  obtain ⟨hidx0, _, _, hlast⟩ := hall v hv
  by_cases hb : v.bound > f32 s.2
  · right
    have hf := f32_nonneg hm0
    have hidx1 : v.index + 1 < (items.length : Int) := by
      by_contra hcon
      have := hlast (by omega)
      omega
    have hwr : wrap32 (v.index + 1) = v.index + 1 := wrap32_eq (by omega) (by omega)
    obtain ⟨it, hit, _, hitem⟩ := getItem_some (show 0 ≤ v.index + 1 by omega) hidx1
    have hinc : includeChild v items = some (incNode v it) := by
      unfold includeChild
      rw [hwr, hit]
      simp only [incNode, hwr]
    obtain ⟨b1, hb1⟩ := estimate_some (K := K) hw (incNode v it)
      (by simp only [incNode, hwr]; omega) (by simp only [incNode, hwr]; omega)
    obtain ⟨b2, hb2⟩ := estimate_some (K := K) hw (excNode v b1)
      (by simp only [excNode, hwr]; omega) (by simp only [excNode, hwr]; omega)
    refine ⟨by omega, it, b1, b2, hidx1, hwr, hitem, hinc, hb1, hb2, ?_⟩
    have hb2x : Node.estimate ⟨(incNode v it).index, v.value, v.weight, b1⟩ K items.length items
        = some b2 := hb2
    unfold bbStep
    simp only [hpop, hb, if_true, hinc, hb1, hb2x]
    rfl
  · left
    refine ⟨by omega, ?_⟩
    unfold bbStep
    simp only [hpop, hb, if_false]

theorem frontierMeasure_perm (N : Int) {l1 l2 : Items} (h : l1.Perm l2) :
    frontierMeasure N l1 = frontierMeasure N l2 := by
  unfold frontierMeasure
  exact (h.map (nodeMeasure N)).sum_eq

theorem frontierMeasure_cons (N : Int) (x : Node) (l : Items) :
    frontierMeasure N (x :: l) = nodeMeasure N x + frontierMeasure N l := by
  simp [frontierMeasure]

theorem frontierMeasure_pushIf_le (N : Int) (pq : Items) (m : Int) (x : Node) :
    frontierMeasure N (pushIf pq m x) ≤ frontierMeasure N pq + nodeMeasure N x := by
  unfold pushIf
  split
  · rw [frontierMeasure_perm N (heapPush_perm pq x), frontierMeasure_cons]
    omega
  · omega

theorem nodeMeasure_pos (N : Int) (n : Node) : 1 ≤ nodeMeasure N n := by
  unfold nodeMeasure
  have h : 2 ≤ 2 ^ ((N - n.index).toNat + 1) := by
    have := Nat.pow_le_pow_right (show 0 < 2 by decide) (show 1 ≤ (N - n.index).toNat + 1 by omega)
    simpa using this
  omega

theorem nodeMeasure_child (N : Int) (v c : Node) (hc : c.index = v.index + 1)
    (h : v.index + 1 < N) : 2 * nodeMeasure N c + 1 ≤ nodeMeasure N v := by
  unfold nodeMeasure
  have e : (N - v.index).toNat = (N - c.index).toNat + 1 := by omega
  rw [e, Nat.pow_succ 2 ((N - c.index).toNat + 1)]
  have h1 : 1 ≤ 2 ^ ((N - c.index).toNat + 1) := Nat.pow_pos (by decide)
  omega

theorem newMax_ge (K m : Int) (u : Node) : m ≤ newMax K m u := by
  unfold newMax
  split <;> omega

theorem newMax_value (K m : Int) (u : Node) (h : u.weight ≤ K) : u.value ≤ newMax K m u := by
  unfold newMax
  by_cases hv : u.value > m
  · rw [if_pos ⟨h, hv⟩]
  · rw [if_neg (fun hc => hv hc.2)]; omega

theorem NodeOK.mono {K N m m1 : Int} {n : Node} (h : NodeOK K N m n) (hm : m ≤ m1) :
    NodeOK K N m1 n :=
  ⟨h.1, h.2.1, le_trans h.2.2.1 hm, h.2.2.2⟩

theorem bbStep_inv {K : Int} {items : Items} (hlen : (items.length : Int) < 2147483648)
    (hw : ∀ it ∈ items, it.weight ≠ 0) {s : Items × Int}
    (hI : FrontierInv K items.length s) (hne : s.1 ≠ []) :
    ∃ s1, bbStep K items.length items s = some s1 ∧ FrontierInv K items.length s1 ∧
      s.2 ≤ s1.2 ∧
      frontierMeasure items.length s1.1 < frontierMeasure items.length s.1 := by
  obtain ⟨v, pq1, _, hperm, hcase⟩ := bbStep_cases hlen hw hI hne
  have hmeas := frontierMeasure_perm (items.length : Int) hperm
  rw [frontierMeasure_cons] at hmeas
  have hv : v ∈ s.1 := hperm.mem_iff.1 (List.mem_cons_self _ _)
  have hsub : ∀ n ∈ pq1, n ∈ s.1 := fun n hn => hperm.mem_iff.1 (List.mem_cons_of_mem _ hn)
  obtain ⟨hm0, hall⟩ := hI
  have hvok := hall v hv
  have hv0 : 0 ≤ v.index := hvok.1
  have hvw : v.weight ≤ K := hvok.2.1
  rcases hcase with ⟨_, hstep⟩ | ⟨_, it, b1, b2, hidx1, hwr, _, _, hb1, hb2, hstep⟩
  · refine ⟨(pq1, s.2), hstep, ⟨hm0, fun n hn => hall n (hsub n hn)⟩, le_refl _, ?_⟩
    have := nodeMeasure_pos (items.length : Int) v
    show frontierMeasure (items.length : Int) pq1 < _
    omega
  · have hge := newMax_ge K s.2 (incNode v it)
    have hf := f32_nonneg (le_trans hm0 hge)
    have hiu : (incNode v it).index = v.index + 1 := by simp only [incNode, hwr]
    have hie : ∀ b, (excNode v b).index = v.index + 1 := by intro b; simp only [excNode, hwr]
    refine ⟨_, hstep, ⟨le_trans hm0 hge, ?_⟩, hge, ?_⟩
    · intro n hn
      rcases mem_pushIf hn with hn1 | ⟨rfl, hbd⟩
      · rcases mem_pushIf hn1 with hn2 | ⟨rfl, hbd⟩
        · exact (hall n (hsub n hn2)).mono hge
        · -- the include child
          have hbd1 : f32 (newMax K s.2 (incNode v it)) < b1 := hbd
          have hlight : (incNode v it).weight < K := by
            by_contra hcon
            rw [estimate_of_heavy _ K _ items (by omega)] at hb1
            have : b1 = 0 := (Option.some.inj hb1).symm
            omega
          have hval := newMax_value K s.2 (incNode v it) (by omega)
          refine ⟨by show 0 ≤ (incNode v it).index; omega, by show (incNode v it).weight ≤ K; omega,
            hval, ?_⟩
          intro hN
          have hN1 : (items.length : Int) ≤ (incNode v it).index + 1 := hN
          rw [estimate_of_last _ K _ items hlight (by omega) (by omega) hN1] at hb1
          have e : b1 = f32 (incNode v it).value := (Option.some.inj hb1).symm
          have := f32_mono hval
          omega
      · -- the exclude child
        have hbd2 : f32 (newMax K s.2 (incNode v it)) < b2 := hbd
        have hval : v.value ≤ newMax K s.2 (incNode v it) := le_trans hvok.2.2.1 hge
        refine ⟨by show 0 ≤ (excNode v b2).index; rw [hie]; omega, hvok.2.1, hval, ?_⟩
        intro hN
        have hN1 : (items.length : Int) ≤ (excNode v b1).index + 1 := by
          rw [hie]; rw [hie] at hN; exact hN
        by_cases hh : K ≤ v.weight
        · rw [estimate_of_heavy _ K _ items (show K ≤ (excNode v b1).weight from hh)] at hb2
          have : b2 = 0 := (Option.some.inj hb2).symm
          omega
        · rw [estimate_of_last _ K _ items (show (excNode v b1).weight < K by
            show v.weight < K; omega) (by rw [hie]; omega) (by rw [hie]; omega) hN1] at hb2
          have e : b2 = f32 v.value := (Option.some.inj hb2).symm
          have := f32_mono hval
          omega
    · have h1 := frontierMeasure_pushIf_le (items.length : Int)
        (pushIf pq1 (newMax K s.2 (incNode v it)) (setBound (incNode v it) b1))
        (newMax K s.2 (incNode v it)) (excNode v b2)
      have h2 := frontierMeasure_pushIf_le (items.length : Int) pq1
        (newMax K s.2 (incNode v it)) (setBound (incNode v it) b1)
      have h3 := nodeMeasure_child (items.length : Int) v (setBound (incNode v it) b1) hiu hidx1
      have h4 := nodeMeasure_child (items.length : Int) v (excNode v b2) (hie b2) hidx1
      have h5 : nodeMeasure (items.length : Int) (setBound (incNode v it) b1) =
          nodeMeasure (items.length : Int) (excNode v b2) := by
        unfold nodeMeasure
        rw [show (setBound (incNode v it) b1).index = v.index + 1 from hiu, hie]
      show frontierMeasure (items.length : Int) (pushIf _ _ _) < _
      omega

/-! ## Runs of the search -/

theorem wrap32_length {items : Items} (hlen : (items.length : Int) < 2147483648) :
    wrap32 (items.length : Int) = (items.length : Int) :=
  wrap32_eq (by omega) hlen

theorem bbInit_inv {K : Int} {items : Items} (hK : 0 ≤ K)
    (hlen : (items.length : Int) < 2147483648) (hw : ∀ it ∈ items, it.weight ≠ 0) :
    ∃ b, bbInit K items = some ([⟨0, 0, 0, b⟩], 0) ∧
      FrontierInv K items.length ([⟨0, 0, 0, b⟩], 0) := by
  obtain ⟨b, hb⟩ := estimate_some (K := K) hw ⟨0, 0, 0, 0⟩ (le_refl _) (by decide)
  refine ⟨b, ?_, le_refl _, ?_⟩
  · unfold bbInit
    rw [wrap32_length hlen, hb]
    simp only [heapPush_nil]
  · intro n hn
    rw [List.mem_singleton] at hn
    subst hn
    refine ⟨le_refl _, hK, le_refl _, ?_⟩
    intro hN
    by_cases hh : K ≤ 0
    · rw [estimate_of_heavy _ K _ items (show K ≤ (⟨0, 0, 0, 0⟩ : Node).weight from hh)] at hb
      exact le_of_eq (Option.some.inj hb).symm
    · rw [estimate_of_last _ K _ items (show (⟨0, 0, 0, 0⟩ : Node).weight < K by
        show (0 : Int) < K; omega) (le_refl _) (by decide) hN] at hb
      have e : b = f32 0 := (Option.some.inj hb).symm
      rw [e, f32_zero]

theorem bbIter_inv {K : Int} {items : Items} (hlen : (items.length : Int) < 2147483648)
    (hw : ∀ it ∈ items, it.weight ≠ 0) :
    ∀ (n : Nat) (s : Items × Int), FrontierInv K items.length s →
      ∃ s1, bbIter K items.length items n s = some s1 ∧ FrontierInv K items.length s1 ∧
        s.2 ≤ s1.2 := by
  intro n
  induction n with
  | zero => intro s hI; exact ⟨s, rfl, hI, le_refl _⟩
  | succ n ih =>
    intro s hI
    by_cases h0 : s.1.length = 0
    · refine ⟨s, ?_, hI, le_refl _⟩
      simp only [bbIter, h0, if_true]
    · have hne : s.1 ≠ [] := fun e => h0 (by rw [e]; rfl)
      obtain ⟨s1, hstep, hI1, hle, _⟩ := bbStep_inv hlen hw hI hne
      obtain ⟨s2, hit, hI2, hle2⟩ := ih s1 hI1
      refine ⟨s2, ?_, hI2, le_trans hle hle2⟩
      simp only [bbIter, h0, if_false, hstep, hit]

theorem reachable_inv {K : Int} {items : Items} (hK : 0 ≤ K)
    (hlen : (items.length : Int) < 2147483648) (hw : ∀ it ∈ items, it.weight ≠ 0)
    {s : Items × Int} (h : Reachable K items s) : FrontierInv K items.length s := by
  obtain ⟨s0, n, h0, hn⟩ := h
  obtain ⟨b, hb, hI⟩ := bbInit_inv hK hlen hw
  rw [hb] at h0
  have e := Option.some.inj h0
  subst e
  rw [wrap32_length hlen] at hn
  obtain ⟨s1, hs1, hI1, _⟩ := bbIter_inv hlen hw n _ hI
  rw [hs1] at hn
  have e := Option.some.inj hn
  subst e
  exact hI1

theorem bbIter_succ_of_step {K N : Int} {items : Items} {s s1 : Items × Int}
    (h0 : s.1.length ≠ 0) (hstep : bbStep K N items s = some s1) (n : Nat) :
    bbIter K N items (n + 1) s = bbIter K N items n s1 := by
  simp only [bbIter, h0, if_false, hstep]

theorem bbLoop_terminates {K : Int} {items : Items} (hlen : (items.length : Int) < 2147483648)
    (hw : ∀ it ∈ items, it.weight ≠ 0) :
    ∀ (fuel : Nat) (s : Items × Int), FrontierInv K items.length s →
      frontierMeasure items.length s.1 < fuel →
      ∃ m, (∀ fuel1, frontierMeasure items.length s.1 < fuel1 →
          bbLoop K items.length items fuel1 s.1 s.2 = .done m) ∧
        ∃ n, bbIter K items.length items n s = some ([], m) := by
  intro fuel
  induction fuel with
  | zero => intro s _ h; omega
  | succ fuel ih =>
    intro s hI hlt
    by_cases h0 : s.1.length = 0
    · refine ⟨s.2, ?_, 0, ?_⟩
      · intro fuel1 h1
        obtain ⟨f, rfl⟩ : ∃ f, fuel1 = f + 1 := ⟨fuel1 - 1, by omega⟩
        rw [bbLoop_succ, if_pos h0]
      · have e : s.1 = [] := List.length_eq_zero.1 h0
        show some s = some ([], s.2)
        rw [← e]
    · have hne : s.1 ≠ [] := fun e => h0 (by rw [e]; rfl)
      obtain ⟨s1, hstep, hI1, _, hdec⟩ := bbStep_inv hlen hw hI hne
      obtain ⟨m, hm, n, hn⟩ := ih s1 hI1 (by omega)
      refine ⟨m, ?_, n + 1, ?_⟩
      · intro fuel1 h1
        obtain ⟨f, rfl⟩ : ∃ f, fuel1 = f + 1 := ⟨fuel1 - 1, by omega⟩
        rw [bbLoop_succ, if_neg h0]
        have e : bbStep K (items.length : Int) items (s.1, s.2) = some s1 := hstep
        simp only [e]
        exact hm f (by omega)
      · rw [bbIter_succ_of_step h0 hstep]
        exact hn

theorem bbLoop_no_crash {K : Int} {items : Items} (hlen : (items.length : Int) < 2147483648)
    (hw : ∀ it ∈ items, it.weight ≠ 0) :
    ∀ (fuel : Nat) (s : Items × Int), FrontierInv K items.length s →
      bbLoop K items.length items fuel s.1 s.2 ≠ .crash := by
  intro fuel
  induction fuel with
  | zero => intro s _ h; exact Outcome.noConfusion h
  | succ fuel ih =>
    intro s hI
    rw [bbLoop_succ]
    by_cases h0 : s.1.length = 0
    · rw [if_pos h0]; exact fun h => Outcome.noConfusion h
    · rw [if_neg h0]
      have hne : s.1 ≠ [] := fun e => h0 (by rw [e]; rfl)
      obtain ⟨s1, hstep, hI1, _, _⟩ := bbStep_inv hlen hw hI hne
      have e : bbStep K (items.length : Int) items (s.1, s.2) = some s1 := hstep
      simp only [e]
      exact ih s1 hI1

theorem frontierMeasure_root (N : Nat) (b : Int) :
    frontierMeasure (N : Int) [⟨0, 0, 0, b⟩] = 2 ^ (N + 1) - 1 := by
  simp [frontierMeasure, nodeMeasure]

theorem bbStep_maxvalue {K N : Int} {items : Items} {s s1 : Items × Int}
    (h : bbStep K N items s = some s1) :
    s.2 ≤ s1.2 ∧
      (s1.2 = s.2 ∨ ∃ v pq1 u, heapPop s.1 = some (v, pq1) ∧ v.bound > f32 s.2 ∧
        includeChild v items = some u ∧ u.weight ≤ K ∧ s.2 < u.value ∧ s1.2 = u.value) := by
  unfold bbStep at h
  cases hpop : heapPop s.1 with
  | none => simp [hpop] at h
  | some r =>
    obtain ⟨v, pq1⟩ := r
    simp only [hpop] at h
    by_cases hb : v.bound > f32 s.2
    · simp only [hb, if_true] at h
      cases hinc : includeChild v items with
      | none => simp [hinc] at h
      | some u =>
        simp only [hinc] at h
        cases hb1 : Node.estimate u K N items with
        | none => simp [hb1] at h
        | some b1 =>
          simp only [hb1] at h
          cases hb2 : Node.estimate ⟨u.index, v.value, v.weight, b1⟩ K N items with
          | none => simp [hb2] at h
          | some b2 =>
            simp only [hb2] at h
            have e := Option.some.inj h
            have e2 : s1.2 = if u.weight ≤ K ∧ u.value > s.2 then u.value else s.2 := by
              rw [← e]
            by_cases hc : u.weight ≤ K ∧ u.value > s.2
            · rw [if_pos hc] at e2
              exact ⟨by omega, Or.inr ⟨v, pq1, u, rfl, hb, hinc, hc.1, hc.2, e2⟩⟩
            · rw [if_neg hc] at e2
              exact ⟨by omega, Or.inl e2⟩
    · simp only [hb, if_false] at h
      have e := Option.some.inj h
      have e2 : s1.2 = s.2 := by rw [← e]
      exact ⟨by omega, Or.inl e2⟩

theorem bbIter_mono {K N : Int} {items : Items} :
    ∀ (n : Nat) (s s1 : Items × Int), bbIter K N items n s = some s1 → s.2 ≤ s1.2 := by
  intro n
  induction n with
  | zero =>
    intro s s1 h
    have e : s = s1 := Option.some.inj h
    rw [e]
  | succ n ih =>
    intro s s1 h
    unfold bbIter at h
    by_cases h0 : s.1.length = 0
    · rw [if_pos h0] at h
      have e : s = s1 := Option.some.inj h
      rw [e]
    · rw [if_neg h0] at h
      cases hstep : bbStep K N items s with
      | none => simp [hstep] at h
      | some s2 =>
        simp only [hstep] at h
        exact le_trans (bbStep_maxvalue hstep).1 (ih s2 s1 h)

theorem bbInit_maxvalue {K : Int} {items : Items} {s0 : Items × Int}
    (h : bbInit K items = some s0) : s0.2 = 0 := by
  unfold bbInit at h
  cases hb : Node.estimate ⟨0, 0, 0, 0⟩ K (wrap32 items.length) items with
  | none => simp [hb] at h
  | some b =>
    simp only [hb] at h
    rw [← Option.some.inj h]

/-! ## Nodes of the search are sums of sets of items -/

theorem itemValues_getD {items : Items} {i : Nat} {it : Node} (h : items[i]? = some it) :
    (itemValues items).getD i 0 = it.value := by
  unfold itemValues
  rw [List.getD_eq_getElem?_getD, List.getElem?_map, h]
  rfl

theorem itemWeights_getD {items : Items} {i : Nat} {it : Node} (h : items[i]? = some it) :
    (itemWeights items).getD i 0 = it.weight := by
  unfold itemWeights
  rw [List.getD_eq_getElem?_getD, List.getElem?_map, h]
  rfl

theorem total_le_sum {xs : List Int} (h : ∀ a ∈ xs, 0 ≤ a) {S : Finset Nat}
    (hS : S ⊆ Finset.range xs.length) : total xs S ≤ xs.sum := by
  rw [← total_range_length xs]
  exact total_mono h hS

theorem bbStep_sumInv {K : Int} {items : Items} (hlen : (items.length : Int) < 2147483648)
    (hw : ∀ it ∈ items, 0 < it.weight) (hv : ∀ it ∈ items, 0 ≤ it.value)
    (hvs : (itemValues items).sum < 2147483648) (hws : (itemWeights items).sum < 2147483648)
    {s : Items × Int} (hI : FrontierInv K items.length s) (hS : SumInv K items s)
    (hne : s.1 ≠ []) {s1 : Items × Int} (hstep : bbStep K items.length items s = some s1) :
    SumInv K items s1 := by
  have hw0 : ∀ it ∈ items, it.weight ≠ 0 := fun it h => ne_of_gt (hw it h)
  have hvn : ∀ a ∈ itemValues items, 0 ≤ a := by
    intro a ha
    obtain ⟨it, hit, rfl⟩ := List.mem_map.1 ha
    exact hv it hit
  have hwn : ∀ a ∈ itemWeights items, 0 ≤ a := by
    intro a ha
    obtain ⟨it, hit, rfl⟩ := List.mem_map.1 ha
    exact le_of_lt (hw it hit)
  have hlv : (itemValues items).length = items.length := by simp [itemValues]
  have hlw : (itemWeights items).length = items.length := by simp [itemWeights]
  obtain ⟨v, pq1, _, hperm, hcase⟩ := bbStep_cases hlen hw0 hI hne
  have hvmem : v ∈ s.1 := hperm.mem_iff.1 (List.mem_cons_self _ _)
  have hsub : ∀ n ∈ pq1, n ∈ s.1 := fun n hn => hperm.mem_iff.1 (List.mem_cons_of_mem _ hn)
  obtain ⟨hach, hnodes⟩ := hS
  have hv0 : 0 ≤ v.index := (hI.2 v hvmem).1
  rcases hcase with ⟨_, hst⟩ | ⟨_, it, b1, b2, hidx1, hwr, hitem, _, _, _, hst⟩
  · rw [hst] at hstep
    rw [← Option.some.inj hstep]
    exact ⟨hach, fun n hn => hnodes n (hsub n hn)⟩
  · rw [hst] at hstep
    rw [← Option.some.inj hstep]
    obtain ⟨S, hSidx, hSv, hSw⟩ := hnodes v hvmem
    have hi : (v.index + 1).toNat ∉ S := by
      intro hmem
      have := (hSidx _ hmem).2
      omega
    have hsubR : insert (v.index + 1).toNat S ⊆ Finset.range items.length := by
      intro j hj
      rcases Finset.mem_insert.1 hj with rfl | hj
      · exact Finset.mem_range.2 (by omega)
      · have := (hSidx j hj).2
        exact Finset.mem_range.2 (by omega)
    have htv : total (itemValues items) (insert (v.index + 1).toNat S) = it.value + v.value := by
      rw [total_insert _ hi, itemValues_getD hitem, hSv]
    have htw : total (itemWeights items) (insert (v.index + 1).toNat S) =
        it.weight + v.weight := by
      rw [total_insert _ hi, itemWeights_getD hitem, hSw]
    have hbv : total (itemValues items) (insert (v.index + 1).toNat S) ≤
        (itemValues items).sum := total_le_sum hvn (by rw [hlv]; exact hsubR)
    have hbw : total (itemWeights items) (insert (v.index + 1).toNat S) ≤
        (itemWeights items).sum := total_le_sum hwn (by rw [hlw]; exact hsubR)
    have hnv := total_nonneg hvn (insert (v.index + 1).toNat S)
    have hnw := total_nonneg hwn (insert (v.index + 1).toNat S)
    have huv : (incNode v it).value = total (itemValues items) (insert (v.index + 1).toNat S) := by
      show wrap32 (v.value + it.value) = _
      rw [wrap32_eq (by omega) (by omega), htv]; ring
    have huw : (incNode v it).weight =
        total (itemWeights items) (insert (v.index + 1).toNat S) := by
      show wrap32 (v.weight + it.weight) = _
      rw [wrap32_eq (by omega) (by omega), htw]; ring
    have hui : (incNode v it).index = v.index + 1 := by simp only [incNode, hwr]
    have hsumU : NodeSum items (setBound (incNode v it) b1) := by
      refine ⟨insert (v.index + 1).toNat S, ?_, huv, huw⟩
      intro j hj
      show 1 ≤ j ∧ (j : Int) ≤ (incNode v it).index
      rw [hui]
      rcases Finset.mem_insert.1 hj with rfl | hj
      · omega
      · have := hSidx j hj
        omega
    have hsumE : NodeSum items (excNode v b2) := by
      refine ⟨S, ?_, hSv, hSw⟩
      intro j hj
      show 1 ≤ j ∧ (j : Int) ≤ wrap32 (v.index + 1)
      rw [hwr]
      have := hSidx j hj
      omega
    refine ⟨?_, ?_⟩
    · show Achieved K items (newMax K s.2 (incNode v it))
      unfold newMax
      by_cases hc : (incNode v it).weight ≤ K ∧ (incNode v it).value > s.2
      · rw [if_pos hc]
        exact ⟨insert (v.index + 1).toNat S, hsubR, by rw [← huw]; exact hc.1, huv.symm⟩
      · rw [if_neg hc]
        exact hach
    · intro n hn
      rcases mem_pushIf hn with hn1 | ⟨rfl, _⟩
      · rcases mem_pushIf hn1 with hn2 | ⟨rfl, _⟩
        · exact hnodes n (hsub n hn2)
        · exact hsumU
      · exact hsumE

theorem bbIter_sumInv {K : Int} {items : Items} (hlen : (items.length : Int) < 2147483648)
    (hw : ∀ it ∈ items, 0 < it.weight) (hv : ∀ it ∈ items, 0 ≤ it.value)
    (hvs : (itemValues items).sum < 2147483648) (hws : (itemWeights items).sum < 2147483648) :
    ∀ (n : Nat) (s s1 : Items × Int), FrontierInv K items.length s → SumInv K items s →
      bbIter K items.length items n s = some s1 → SumInv K items s1 := by
  have hw0 : ∀ it ∈ items, it.weight ≠ 0 := fun it h => ne_of_gt (hw it h)
  intro n
  induction n with
  | zero =>
    intro s s1 _ hS h
    have e : s = s1 := Option.some.inj h
    rw [← e]; exact hS
  | succ n ih =>
    intro s s1 hI hS h
    unfold bbIter at h
    by_cases h0 : s.1.length = 0
    · rw [if_pos h0] at h
      have e : s = s1 := Option.some.inj h
      rw [← e]; exact hS
    · rw [if_neg h0] at h
      have hne : s.1 ≠ [] := fun e => h0 (by rw [e]; rfl)
      obtain ⟨s2, hstep, hI2, _, _⟩ := bbStep_inv hlen hw0 hI hne
      simp only [hstep] at h
      exact ih s2 s1 hI2 (bbStep_sumInv hlen hw hv hvs hws hI hS hne hstep) h

theorem sumInv_root (K : Int) (items : Items) (hK : 0 ≤ K) (b : Int) :
    SumInv K items ([⟨0, 0, 0, b⟩], 0) := by
  refine ⟨⟨∅, Finset.empty_subset _, by simpa [total] using hK, by simp [total]⟩, ?_⟩
  intro n hn
  rw [List.mem_singleton] at hn
  subst hn
  exact ⟨∅, by simp, by simp [total], by simp [total]⟩

theorem weight_ne_zero {items : Items} (hw : ∀ it ∈ items, 0 < it.weight) :
    ∀ it ∈ items, it.weight ≠ 0 :=
  fun it h => ne_of_gt (hw it h)

theorem knapsack_terminates {K : Int} {items : Items} (hK : 0 ≤ K)
    (hlen : (items.length : Int) < 2147483648) (hw : ∀ it ∈ items, it.weight ≠ 0) :
    ∃ m b n, (∀ fuel, 2 ^ (items.length + 1) ≤ fuel →
        knapsackBranchAndBound fuel K items = .done m) ∧
      FrontierInv K items.length ([⟨0, 0, 0, b⟩], 0) ∧
      bbIter K items.length items n ([⟨0, 0, 0, b⟩], 0) = some ([], m) := by
  obtain ⟨b, hb, hI⟩ := bbInit_inv hK hlen hw
  have hpos : 1 ≤ 2 ^ (items.length + 1) := Nat.pow_pos (by decide)
  have hmeas : frontierMeasure (items.length : Int) ([⟨0, 0, 0, b⟩] : Items) <
      2 ^ (items.length + 1) := by
    rw [frontierMeasure_root]; omega
  obtain ⟨m, hm, n, hn⟩ := bbLoop_terminates hlen hw (2 ^ (items.length + 1)) _ hI hmeas
  refine ⟨m, b, n, ?_, hI, hn⟩
  intro fuel hfuel
  rw [knapsackBranchAndBound_eq, hb, wrap32_length hlen]
  exact hm fuel (by
    show frontierMeasure (items.length : Int) ([⟨0, 0, 0, b⟩] : Items) < fuel
    omega)

/-! ## Claims about the run of branch and bound -/

/-- C15: for `K ≥ 0` and positive weights, in every state that the loop of
`knapsackBranchAndBound` passes through every node of the frontier has
accumulated weight at most `K`; and when the include child `u` of the popped
node has weight above `K`, its bound is 0, the push guard is false and the
frontier is left as it is. -/
theorem frontier_weights_within_capacity (K : Int) (items : Items) (s : Items × Int)
    (hK : 0 ≤ K) (hlen : (items.length : Int) < 2147483648)
    (hw : ∀ it ∈ items, 0 < it.weight) (hr : Reachable K items s) :
    (∀ n ∈ s.1, n.weight ≤ K) ∧
    (∀ v pq1 u b, heapPop s.1 = some (v, pq1) → includeChild v items = some u →
      K < u.weight → Node.estimate u K (wrap32 items.length) items = some b →
      b = 0 ∧ ¬ (b > f32 (newMax K s.2 u)) ∧
        pushIf pq1 (newMax K s.2 u) (setBound u b) = pq1) := by
  have hI := reachable_inv hK hlen (weight_ne_zero hw) hr
  refine ⟨fun n hn => (hI.2 n hn).2.1, ?_⟩
  intro v pq1 u b _ _ hheavy hb
  rw [estimate_of_heavy u K _ items (by omega)] at hb
  have e : b = 0 := (Option.some.inj hb).symm
  have hf := f32_nonneg (le_trans hI.1 (newMax_ge K s.2 u))
  have hng : ¬ (b > f32 (newMax K s.2 u)) := by omega
  refine ⟨e, hng, ?_⟩
  have hng2 : ¬ ((setBound u b).bound > f32 (newMax K s.2 u)) := hng
  unfold pushIf
  rw [if_neg hng2]

/-- Witness of `frontier_weights_within_capacity`: capacity 50, the three
items of the scenario in sorted order, the state after one iteration. -/
theorem frontier_weights_within_capacity_witness :
    (0 : Int) ≤ 50 ∧
    ((([⟨2, 120, 30, -1⟩, ⟨1, 100, 20, -1⟩, ⟨0, 60, 10, -1⟩] : Items).length : Nat) : Int)
      < 2147483648 ∧
    (∀ it ∈ ([⟨2, 120, 30, -1⟩, ⟨1, 100, 20, -1⟩, ⟨0, 60, 10, -1⟩] : Items), 0 < it.weight) ∧
    Reachable 50 [⟨2, 120, 30, -1⟩, ⟨1, 100, 20, -1⟩, ⟨0, 60, 10, -1⟩]
      ([⟨1, 100, 20, 160⟩], 100) ∧
    ∀ n ∈ ([⟨1, 100, 20, 160⟩] : Items), n.weight ≤ 50 :=
  ⟨by decide, by decide, by decide, ⟨([⟨0, 0, 0, 160⟩], 0), 1, by decide, by decide⟩,
    (frontier_weights_within_capacity 50
      [⟨2, 120, 30, -1⟩, ⟨1, 100, 20, -1⟩, ⟨0, 60, 10, -1⟩] ([⟨1, 100, 20, 160⟩], 100)
      (by decide) (by decide) (by decide)
      ⟨([⟨0, 0, 0, 160⟩], 0), 1, by decide, by decide⟩).1⟩

/-- C16: `*maxvalue` is 0 on entry to the loop; an iteration of the loop from
any state leaves it at least as large as before, and changes it only to the
value of an include child whose weight is at most `K`; in every state that the
loop passes through it is non-negative. -/
theorem maxvalue_monotone (K : Int) (items : Items) (s s1 r : Items × Int)
    (hstep : bbStep K (wrap32 items.length) items s = some s1) (hr : Reachable K items r) :
    s.2 ≤ s1.2 ∧
    (s1.2 = s.2 ∨ ∃ v pq1 u, heapPop s.1 = some (v, pq1) ∧ v.bound > f32 s.2 ∧
      includeChild v items = some u ∧ u.weight ≤ K ∧ s.2 < u.value ∧ s1.2 = u.value) ∧
    0 ≤ r.2 ∧ (∀ s0, bbInit K items = some s0 → s0.2 = 0) := by
  obtain ⟨h1, h2⟩ := bbStep_maxvalue hstep
  refine ⟨h1, h2, ?_, fun s0 h0 => bbInit_maxvalue h0⟩
  obtain ⟨s0, n, h0, hn⟩ := hr
  have := bbIter_mono n s0 r hn
  rw [bbInit_maxvalue h0] at this
  exact this

/-- Witness of `maxvalue_monotone`: the first iteration on the three items of
the scenario raises `*maxvalue` from 0 to 100. -/
theorem maxvalue_monotone_witness :
    bbStep 50 (wrap32 (([⟨2, 120, 30, -1⟩, ⟨1, 100, 20, -1⟩, ⟨0, 60, 10, -1⟩] : Items).length : Nat))
      [⟨2, 120, 30, -1⟩, ⟨1, 100, 20, -1⟩, ⟨0, 60, 10, -1⟩] ([⟨0, 0, 0, 160⟩], 0)
      = some ([⟨1, 100, 20, 160⟩], 100) ∧
    Reachable 50 [⟨2, 120, 30, -1⟩, ⟨1, 100, 20, -1⟩, ⟨0, 60, 10, -1⟩]
      ([⟨1, 100, 20, 160⟩], 100) ∧
    (0 : Int) ≤ 100 :=
  ⟨by decide, ⟨([⟨0, 0, 0, 160⟩], 0), 1, by decide, by decide⟩,
    (maxvalue_monotone 50 [⟨2, 120, 30, -1⟩, ⟨1, 100, 20, -1⟩, ⟨0, 60, 10, -1⟩]
      ([⟨0, 0, 0, 160⟩], 0) ([⟨1, 100, 20, 160⟩], 100) ([⟨1, 100, 20, 160⟩], 100)
      (by decide) ⟨([⟨0, 0, 0, 160⟩], 0), 1, by decide, by decide⟩).1⟩

/-- C17: on a valid instance without `int32` overflow of the weight sum,
`knapsackBranchAndBound` ends (for every iteration budget of at least
`2^(N+1)`) with a value `m` that is the total value of a set of items of total
weight at most `K`, and `m` is at most the value that
`solveDynamicProgramming` reports on the same items. -/
theorem branch_and_bound_value_achievable (K : Int) (items : Items)
    (h : Valid K (itemValues items) (itemWeights items))
    (hws : (itemWeights items).sum < 2147483648) :
    ∃ m, (∀ fuel, 2 ^ (items.length + 1) ≤ fuel →
        knapsackBranchAndBound fuel K items = .done m) ∧
      Achieved K items m ∧
      ∃ val x, solveDynamicProgramming K (itemValues items) (itemWeights items) =
        some (val, x) ∧ m ≤ val := by
  have hlv : (itemValues items).length = items.length := by simp [itemValues]
  have hvalid := h
  obtain ⟨hK0, _, _, hN1, hvn, hwp, hvs⟩ := h
  have hlen : (items.length : Int) < 2147483648 := by rw [hlv] at hN1; omega
  have hw : ∀ it ∈ items, 0 < it.weight := fun it hit =>
    hwp it.weight (List.mem_map.2 ⟨it, hit, rfl⟩)
  have hv : ∀ it ∈ items, 0 ≤ it.value := fun it hit =>
    hvn it.value (List.mem_map.2 ⟨it, hit, rfl⟩)
  obtain ⟨m, b, n, hm, hI, hn⟩ := knapsack_terminates hK0 hlen (weight_ne_zero hw)
  have hS := bbIter_sumInv hlen hw hv hvs hws n _ _ hI (sumInv_root K items hK0 b) hn
  have hach : Achieved K items m := hS.1
  obtain ⟨x, hx, _, _, _⟩ := solveDP_spec hvalid
  refine ⟨m, hm, hach, _, x, hx, ?_⟩
  obtain ⟨S, hSsub, hSw, hSv⟩ := hach
  rw [← hSv]
  exact opt_upper (fun a ha => le_of_lt (hwp a ha)) (itemValues items) _ K S
    (by rw [hlv]; exact hSsub) hSw

/-- Witness of `branch_and_bound_value_achievable` on the three items of the
scenario in sorted order, capacity 50. -/
theorem branch_and_bound_value_achievable_witness :
    Valid 50 (itemValues [⟨2, 120, 30, -1⟩, ⟨1, 100, 20, -1⟩, ⟨0, 60, 10, -1⟩])
      (itemWeights [⟨2, 120, 30, -1⟩, ⟨1, 100, 20, -1⟩, ⟨0, 60, 10, -1⟩]) ∧
    (itemWeights [⟨2, 120, 30, -1⟩, ⟨1, 100, 20, -1⟩, ⟨0, 60, 10, -1⟩]).sum < 2147483648 ∧
    ∃ m, (∀ fuel,
        2 ^ (([⟨2, 120, 30, -1⟩, ⟨1, 100, 20, -1⟩, ⟨0, 60, 10, -1⟩] : Items).length + 1) ≤ fuel →
        knapsackBranchAndBound fuel 50 [⟨2, 120, 30, -1⟩, ⟨1, 100, 20, -1⟩, ⟨0, 60, 10, -1⟩]
          = .done m) ∧
      Achieved 50 [⟨2, 120, 30, -1⟩, ⟨1, 100, 20, -1⟩, ⟨0, 60, 10, -1⟩] m ∧
      ∃ val x, solveDynamicProgramming 50
        (itemValues [⟨2, 120, 30, -1⟩, ⟨1, 100, 20, -1⟩, ⟨0, 60, 10, -1⟩])
        (itemWeights [⟨2, 120, 30, -1⟩, ⟨1, 100, 20, -1⟩, ⟨0, 60, 10, -1⟩]) = some (val, x) ∧
        m ≤ val :=
  ⟨by decide, by decide,
    branch_and_bound_value_achievable 50
      [⟨2, 120, 30, -1⟩, ⟨1, 100, 20, -1⟩, ⟨0, 60, 10, -1⟩] (by decide) (by decide)⟩

/-- C18: for `K ≥ 0` and positive weights, `knapsackBranchAndBound` never
panics: in every state that its loop passes through the loop body runs without
an out-of-range access or a division by zero, and a node that is expanded has
`index + 1 < N`, so that the access `items[u.index]` with `u.index = index + 1`
is in range (no node with index `N - 1` is expanded). -/
theorem branch_and_bound_index_safe (K : Int) (items : Items) (fuel : Nat) (s : Items × Int)
    (hK : 0 ≤ K) (hlen : (items.length : Int) < 2147483648)
    (hw : ∀ it ∈ items, 0 < it.weight) (hr : Reachable K items s) :
    knapsackBranchAndBound fuel K items ≠ .crash ∧
    (s.1 ≠ [] → ∃ s1, bbStep K (wrap32 items.length) items s = some s1) ∧
    (∀ v pq1, heapPop s.1 = some (v, pq1) → v.bound > f32 s.2 →
      0 ≤ v.index ∧ v.index + 1 < items.length ∧ wrap32 (v.index + 1) = v.index + 1) := by
  have hw0 := weight_ne_zero hw
  have hI := reachable_inv hK hlen hw0 hr
  refine ⟨?_, ?_, ?_⟩
  · obtain ⟨b, hb, hI0⟩ := bbInit_inv hK hlen hw0
    rw [knapsackBranchAndBound_eq, hb, wrap32_length hlen]
    exact bbLoop_no_crash hlen hw0 fuel _ hI0
  · intro hne
    obtain ⟨s1, hs1, _⟩ := bbStep_inv hlen hw0 hI hne
    rw [wrap32_length hlen]
    exact ⟨s1, hs1⟩
  · intro v pq1 hpop hb
    have hne : s.1 ≠ [] := by
      intro e
      rw [e] at hpop
      have hnil : heapPop ([] : Items) = none := rfl
      rw [hnil] at hpop
      exact Option.noConfusion hpop
    obtain ⟨v1, pq2, hpop1, hperm, hcase⟩ := bbStep_cases hlen hw0 hI hne
    rw [hpop] at hpop1
    have e := Option.some.inj hpop1
    have ev : v = v1 := congrArg Prod.fst e
    subst ev
    have hv0 : 0 ≤ v.index := (hI.2 v (hperm.mem_iff.1 (List.mem_cons_self _ _))).1
    rcases hcase with ⟨hle, _⟩ | ⟨_, it, b1, b2, hidx1, hwr, _⟩
    · omega
    · exact ⟨hv0, hidx1, hwr⟩

/-- Witness of `branch_and_bound_index_safe` on the three items of the
scenario in sorted order, capacity 50, the state on entry to the loop. -/
theorem branch_and_bound_index_safe_witness :
    (0 : Int) ≤ 50 ∧
    ((([⟨2, 120, 30, -1⟩, ⟨1, 100, 20, -1⟩, ⟨0, 60, 10, -1⟩] : Items).length : Nat) : Int)
      < 2147483648 ∧
    (∀ it ∈ ([⟨2, 120, 30, -1⟩, ⟨1, 100, 20, -1⟩, ⟨0, 60, 10, -1⟩] : Items), 0 < it.weight) ∧
    Reachable 50 [⟨2, 120, 30, -1⟩, ⟨1, 100, 20, -1⟩, ⟨0, 60, 10, -1⟩] ([⟨0, 0, 0, 160⟩], 0) ∧
    knapsackBranchAndBound 16 50 [⟨2, 120, 30, -1⟩, ⟨1, 100, 20, -1⟩, ⟨0, 60, 10, -1⟩] ≠ .crash :=
  ⟨by decide, by decide, by decide, ⟨([⟨0, 0, 0, 160⟩], 0), 0, by decide, by decide⟩,
    (branch_and_bound_index_safe 50 [⟨2, 120, 30, -1⟩, ⟨1, 100, 20, -1⟩, ⟨0, 60, 10, -1⟩] 16
      ([⟨0, 0, 0, 160⟩], 0) (by decide) (by decide) (by decide)
      ⟨([⟨0, 0, 0, 160⟩], 0), 0, by decide, by decide⟩).1⟩

theorem bb_nonpos_capacity (fuel : Nat) (K : Int) (items : Items) (hK : K ≤ 0) :
    knapsackBranchAndBound (fuel + 2) K items = .done 0 := by
  have h : Node.estimate ⟨0, 0, 0, 0⟩ K (wrap32 items.length) items = some 0 :=
    estimate_of_heavy _ K _ items hK
  simp only [knapsackBranchAndBound, h, heapPush_nil, bbLoop_root_zero]

/-- C19: for every `K` and every item sequence with positive weights the loop
of `knapsackBranchAndBound` reaches an empty frontier: with every iteration
budget of at least `2^(N+1)` the run ends with a value, the same for all such
budgets. -/
theorem branch_and_bound_terminates (K : Int) (items : Items)
    (hlen : (items.length : Int) < 2147483648) (hw : ∀ it ∈ items, 0 < it.weight) :
    ∃ m, ∀ fuel, 2 ^ (items.length + 1) ≤ fuel →
      knapsackBranchAndBound fuel K items = .done m := by
  by_cases hK : 0 ≤ K
  · obtain ⟨m, _, _, hm, _, _⟩ := knapsack_terminates hK hlen (weight_ne_zero hw)
    exact ⟨m, hm⟩
  · refine ⟨0, fun fuel hfuel => ?_⟩
    have h2 : 2 ≤ 2 ^ (items.length + 1) := by
      have := Nat.pow_le_pow_right (show 0 < 2 by decide) (show 1 ≤ items.length + 1 by omega)
      simpa using this
    obtain ⟨f, rfl⟩ : ∃ f, fuel = f + 2 := ⟨fuel - 2, by omega⟩
    exact bb_nonpos_capacity f K items (by omega)

/-- Witness of `branch_and_bound_terminates` on the three items of the
scenario in sorted order, capacity 50. -/
theorem branch_and_bound_terminates_witness :
    ((([⟨2, 120, 30, -1⟩, ⟨1, 100, 20, -1⟩, ⟨0, 60, 10, -1⟩] : Items).length : Nat) : Int)
      < 2147483648 ∧
    (∀ it ∈ ([⟨2, 120, 30, -1⟩, ⟨1, 100, 20, -1⟩, ⟨0, 60, 10, -1⟩] : Items), 0 < it.weight) ∧
    ∃ m, ∀ fuel,
      2 ^ (([⟨2, 120, 30, -1⟩, ⟨1, 100, 20, -1⟩, ⟨0, 60, 10, -1⟩] : Items).length + 1) ≤ fuel →
      knapsackBranchAndBound fuel 50 [⟨2, 120, 30, -1⟩, ⟨1, 100, 20, -1⟩, ⟨0, 60, 10, -1⟩]
        = .done m :=
  ⟨by decide, by decide,
    branch_and_bound_terminates 50 [⟨2, 120, 30, -1⟩, ⟨1, 100, 20, -1⟩, ⟨0, 60, 10, -1⟩]
      (by decide) (by decide)⟩

/-! ## Index safety of the dynamic-programming solver -/

theorem fillCell_shape {v w : List Int} {K N : Nat} (hK : (K : Int) + 1 < 2147483648)
    (hNv : N ≤ v.length) (hNw : N ≤ w.length) (hw : ∀ a ∈ w, 0 < a)
    {k j : Nat} (hk1 : 1 ≤ k) (hkK : k ≤ K) (hj1 : 1 ≤ j) (hjN : j ≤ N) {O : Table}
    (hI : ShapeInv w K N k j O) :
    ∃ O1, fillCell v w k j O = some O1 ∧ ShapeInv w K N k (j + 1) O1 := by
  obtain ⟨i, rfl⟩ : ∃ i, j = i + 1 := ⟨j - 1, by omega⟩
  have hiw : i < w.length := by omega
  have hiv : i < v.length := by omega
  have hwi := getElem?_getD w hiw
  have hvi := getElem?_getD v hiv
  have hpos := getD_pos hw hiw
  have hcast : ((i + 1 : Nat) : Int) - 1 = (i : Int) := by push_cast; ring
  obtain ⟨a, ha⟩ := (hI k i hkK (by omega)).1
  have hA : O.read (k : Int) (i : Int) = some a := by rw [read_cast]; exact ha
  obtain ⟨y, hy⟩ := (hI k (i + 1) hkK hjN).1
  -- the invariant after writing `x`, provided `x ≠ a` only if the item fits
  have hfin : ∀ (x : Int) (O1 : Table),
      (∀ k1 j1, readN O1 k1 j1 = if k1 = k ∧ j1 = i + 1 then some x else readN O k1 j1) →
      (x ≠ a → w.getD i 0 ≤ (k : Int)) →
      ShapeInv w K N k (i + 1 + 1) O1 := by
    intro x O1 hO1 hx k1 j1 hk1K hj1N
    obtain ⟨hex, hzero, hdiff⟩ := hI k1 j1 hk1K hj1N
    refine ⟨?_, ?_, ?_⟩
    · rw [hO1 k1 j1]
      split
      · exact ⟨x, rfl⟩
      · exact hex
    · intro hk0
      rw [hO1 k1 j1, if_neg (by omega)]
      exact hzero hk0
    · intro i1 hj hfilled hne
      subst hj
      by_cases hc : k1 = k ∧ i1 + 1 = i + 1
      · obtain ⟨rfl, hi⟩ := hc
        have hii : i1 = i := by omega
        subst hii
        rw [hO1 k1 (i1 + 1), if_pos ⟨rfl, rfl⟩, hO1 k1 i1, if_neg (by omega), ha] at hne
        exact hx (fun e => hne (by rw [e]))
      · have hold : k1 < k ∨ (k1 = k ∧ i1 + 1 < i + 1) := by
          rcases hfilled with h | ⟨h1, h2⟩
          · exact Or.inl h
          · refine Or.inr ⟨h1, ?_⟩
            have : i1 + 1 ≠ i + 1 := fun e => hc ⟨h1, e⟩
            omega
        have hc2 : ¬ (k1 = k ∧ i1 = i + 1) := by
          rintro ⟨h1, h2⟩
          rcases hold with h | ⟨_, h⟩ <;> omega
        rw [hO1 k1 (i1 + 1), if_neg hc, hO1 k1 i1, if_neg hc2] at hne
        exact hdiff i1 rfl hold hne
  by_cases hle : w.getD i 0 ≤ (k : Int)
  · obtain ⟨kw, hkw⟩ : ∃ kw : Nat, (k : Int) - w.getD i 0 = (kw : Int) :=
      ⟨((k : Int) - w.getD i 0).toNat, by omega⟩
    have hwrap : wrap32 ((k : Int) - w.getD i 0) = (kw : Int) := by
      rw [wrap32_eq (by omega) (by omega)]; exact hkw
    obtain ⟨b, hb⟩ := (hI kw i (by omega) (by omega)).1
    have hB : O.read (kw : Int) (i : Int) = some b := by rw [read_cast]; exact hb
    obtain ⟨O1, hwO, hO1⟩ := write_some (max a (wrap32 (v.getD i 0 + b))) hy
    refine ⟨O1, ?_, hfin _ O1 hO1 (fun _ => hle)⟩
    simp only [fillCell, Nat.add_sub_cancel, hwi, hle, if_true, hcast, hA, hvi, hwrap, hB, hwO]
  · obtain ⟨O1, hwO, hO1⟩ := write_some a hy
    refine ⟨O1, ?_, hfin _ O1 hO1 (fun hne => absurd rfl hne)⟩
    simp only [fillCell, Nat.add_sub_cancel, hwi, hle, if_false, hcast, hA, hwO]

theorem fillTable_shape {v w : List Int} {K N : Nat} (hK : (K : Int) + 1 < 2147483648)
    (hNv : N ≤ v.length) (hNw : N ≤ w.length) (hw : ∀ a ∈ w, 0 < a) :
    ∃ O1, fillTable v w K N (List.replicate (K + 1) (List.replicate (N + 1) 0)) = some O1 ∧
      ShapeInv w K N (K + 1) 1 O1 := by
  have hrow : ∀ k O, 1 ≤ k → k < 1 + K → ShapeInv w K N k 1 O →
      ∃ O1, forLoop (fun j O2 => fillCell v w k j O2) 1 N O = some O1 ∧
        ShapeInv w K N (k + 1) 1 O1 := by
    intro k O hk1 hkK hI
    obtain ⟨O1, hO1, hI1⟩ := forLoop_inv (fun j O2 => fillCell v w k j O2)
      (fun j O2 => ShapeInv w K N k j O2) N 1 O
      (fun j O2 hj1 hjN hI2 =>
        fillCell_shape hK hNv hNw hw hk1 (by omega) hj1 (by omega) hI2) hI
    refine ⟨O1, hO1, ?_⟩
    intro k1 j1 hk1K hj1N
    obtain ⟨hex, hzero, hdiff⟩ := hI1 k1 j1 hk1K hj1N
    refine ⟨hex, hzero, fun i hj hfilled hne => hdiff i hj ?_ hne⟩
    rcases hfilled with h | ⟨_, h2⟩
    · by_cases hlt : k1 < k
      · exact Or.inl hlt
      · exact Or.inr ⟨by omega, by omega⟩
    · omega
  have h0 : ShapeInv w K N 1 1 (List.replicate (K + 1) (List.replicate (N + 1) 0)) := by
    intro k j hkK hjN
    refine ⟨⟨0, readN_zero K N k j hkK hjN⟩, fun _ => readN_zero K N k j hkK hjN, ?_⟩
    intro i hj _ hne
    subst hj
    rw [readN_zero K N k (i + 1) hkK hjN, readN_zero K N k i hkK (by omega)] at hne
    exact absurd rfl hne
  obtain ⟨O1, hO1, hI1⟩ := forLoop_inv
    (fun k O1 => forLoop (fun j O2 => fillCell v w k j O2) 1 N O1)
    (fun k O2 => ShapeInv w K N k 1 O2) K 1 _ hrow h0
  refine ⟨O1, hO1, ?_⟩
  have e : 1 + K = K + 1 := by omega
  rw [e] at hI1
  exact hI1

theorem shape_step {w : List Int} {K N : Nat} {O : Table} (hT : ShapeInv w K N (K + 1) 1 O)
    (hNw : N ≤ w.length) (hw : ∀ a ∈ w, 0 < a)
    (i : Nat) (k : Int) (hi : i < N) (hk0 : 0 ≤ k) (hkK : k ≤ K) :
    ∃ a b, O.read k ((i : Int) + 1) = some a ∧ O.read k i = some b ∧
      (a ≠ b → w.getD i 0 ≤ k ∧ 0 ≤ k - w.getD i 0 ∧ k - w.getD i 0 ≤ K) := by
  obtain ⟨kn, rfl⟩ : ∃ kn : Nat, k = (kn : Int) := ⟨k.toNat, by omega⟩
  have hknK : kn ≤ K := by omega
  obtain ⟨⟨a, ha⟩, hzero, hdiff⟩ := hT kn (i + 1) hknK (by omega)
  obtain ⟨⟨b, hb⟩, hzero2, _⟩ := hT kn i hknK (by omega)
  have e : (i : Int) + 1 = ((i + 1 : Nat) : Int) := by push_cast; rfl
  refine ⟨a, b, by rw [e, read_cast]; exact ha, by rw [read_cast]; exact hb, ?_⟩
  intro hne
  have hpos := getD_pos hw (show i < w.length by omega)
  have hle : w.getD i 0 ≤ (kn : Int) := by
    by_cases hk : kn = 0
    · exfalso
      rw [hzero hk] at ha
      rw [hzero2 hk] at hb
      exact hne (by rw [← Option.some.inj ha, ← Option.some.inj hb])
    · exact hdiff i rfl (Or.inl (by omega)) (by rw [ha, hb]; exact fun h => hne (Option.some.inj h))
  exact ⟨hle, by omega, by omega⟩

theorem backtrack_safe {w : List Int} {K N : Nat} (hK : (K : Int) + 1 < 2147483648) {O : Table}
    (hT : ShapeInv w K N (K + 1) 1 O) (hNw : N ≤ w.length) (hw : ∀ a ∈ w, 0 < a) :
    ∀ (i : Nat) (k : Int) (x : List Int), i ≤ N → 0 ≤ k → k ≤ K → x.length = N →
      ∃ k1 x1, backtrack O w i k x = some (k1, x1) ∧ 0 ≤ k1 ∧ k1 ≤ k ∧ x1.length = N := by
  intro i
  induction i with
  | zero => intro k x _ hk0 _ hx; exact ⟨k, x, rfl, hk0, le_refl _, hx⟩
  | succ i ih =>
    intro k x hiN hk0 hkK hx
    obtain ⟨a, b, hA, hB, hstep⟩ := shape_step hT hNw hw i k (by omega) hk0 hkK
    have hwi := getElem?_getD w (show i < w.length by omega)
    have hpos := getD_pos hw (show i < w.length by omega)
    by_cases hne : a ≠ b
    · obtain ⟨hle, h0, h1⟩ := hstep hne
      have hwrap : wrap32 (k - w.getD i 0) = k - w.getD i 0 := wrap32_eq (by omega) (by omega)
      have hix : i < x.length := by omega
      obtain ⟨k1, x1, hbt, hk1, hk1k, hlen1⟩ := ih (k - w.getD i 0) (x.set i 1) (by omega) h0 h1
        (by rw [List.length_set]; exact hx)
      refine ⟨k1, x1, ?_, hk1, by omega, hlen1⟩
      simp only [backtrack, hA, hB, ne_eq, hne, not_false_eq_true, if_true, hix, hwi, hwrap, hbt]
    · have heq : a = b := not_not.1 hne
      obtain ⟨k1, x1, hbt, hk1, hk1k, hlen1⟩ := ih k x (by omega) hk0 hkK hx
      refine ⟨k1, x1, ?_, hk1, hk1k, hlen1⟩
      simp only [backtrack, hA, hB, ne_eq, heq, not_true_eq_false, if_false, hbt]

/-- C20: for `K ≥ 0` and positive weights (with `K + 1` and `N + 1`
representable as `int32`) the solver returns without a panic; in the filled
table, for every item `i < N` and every capacity `0 ≤ k ≤ K` the two entries
that the backtracking compares exist, and if they differ then
`weight[i] ≤ k`, so that the new capacity `k - weight[i]` is again within
`0..K`; and the backtracking loop started at any item count `i ≤ N` with any
capacity within `0..K` ends with a capacity within `0..k`. -/
theorem dp_backtracking_in_bounds (K : Int) (v w : List Int) (hK0 : 0 ≤ K)
    (hK1 : K + 1 < 2147483648) (hlen : v.length = w.length)
    (hN : (v.length : Int) + 1 < 2147483648) (hw : ∀ a ∈ w, 0 < a) :
    (∃ val x, solveDynamicProgramming K v w = some (val, x)) ∧
    ∃ O1, fillTable v w K.toNat v.length
        (List.replicate (K.toNat + 1) (List.replicate (v.length + 1) 0)) = some O1 ∧
      (∀ (i : Nat) (k : Int), i < v.length → 0 ≤ k → k ≤ K →
        ∃ a b, O1.read k ((i : Int) + 1) = some a ∧ O1.read k i = some b ∧
          (a ≠ b → w.getD i 0 ≤ k ∧ 0 ≤ k - w.getD i 0 ∧ k - w.getD i 0 ≤ K)) ∧
      (∀ (i : Nat) (k : Int) (x : List Int), i ≤ v.length → 0 ≤ k → k ≤ K →
        x.length = v.length →
        ∃ k1 x1, backtrack O1 w i k x = some (k1, x1) ∧ 0 ≤ k1 ∧ k1 ≤ k) := by
  obtain ⟨Kn, rfl⟩ : ∃ Kn : Nat, K = (Kn : Int) := ⟨K.toNat, by omega⟩
  have hNw : v.length ≤ w.length := by omega
  obtain ⟨O1, hfill, hT⟩ := fillTable_shape (v := v) (w := w) (K := Kn) (N := v.length) hK1
    (Nat.le_refl _) hNw hw
  have hback := backtrack_safe hK1 hT hNw hw
  refine ⟨?_, O1, ?_, ?_, ?_⟩
  · have hwN : wrap32 (v.length : Int) = (v.length : Int) := wrap32_eq (by omega) (by omega)
    have hwK1 : wrap32 ((Kn : Int) + 1) = (Kn : Int) + 1 := wrap32_eq (by omega) (by omega)
    have hwN1 : wrap32 ((v.length : Int) + 1) = (v.length : Int) + 1 :=
      wrap32_eq (by omega) (by omega)
    have hcond : ¬ ((Kn : Int) + 1 < 0 ∨ (v.length : Int) < 0 ∨ (Kn : Int) < 0 ∨
        (v.length : Int) + 1 < 0) := by omega
    have hKt : ((Kn : Int) + 1).toNat = Kn + 1 := by omega
    have hNt : ((v.length : Int) + 1).toNat = v.length + 1 := by omega
    obtain ⟨val, hval⟩ := (hT Kn v.length (Nat.le_refl _) (Nat.le_refl _)).1
    have hread : O1.read (Kn : Int) (v.length : Int) = some val := by
      rw [read_cast]; exact hval
    obtain ⟨k1, x1, hbt, _, _, _⟩ := hback v.length (Kn : Int) (List.replicate v.length 0)
      (Nat.le_refl _) (by omega) (by omega) (by simp)
    refine ⟨val, x1, ?_⟩
    unfold solveDynamicProgramming
    simp only [hwN, hwK1, hwN1]
    rw [if_neg hcond]
    simp only [hKt, hNt, Int.toNat_ofNat, hfill, hread, hbt]
  · rw [Int.toNat_ofNat]; exact hfill
  · intro i k hi hk0 hkK
    exact shape_step hT hNw hw i k hi hk0 hkK
  · intro i k x hi hk0 hkK hx
    obtain ⟨k1, x1, hbt, h0, h1, _⟩ := hback i k x hi hk0 hkK hx
    exact ⟨k1, x1, hbt, h0, h1⟩

/-- Witness of `dp_backtracking_in_bounds` on the three items of the scenario,
capacity 50. -/
theorem dp_backtracking_in_bounds_witness :
    (0 : Int) ≤ 50 ∧ (50 : Int) + 1 < 2147483648 ∧
    ([60, 100, 120] : List Int).length = ([10, 20, 30] : List Int).length ∧
    (([60, 100, 120] : List Int).length : Int) + 1 < 2147483648 ∧
    (∀ a ∈ ([10, 20, 30] : List Int), 0 < a) ∧
    ∃ val x, solveDynamicProgramming 50 [60, 100, 120] [10, 20, 30] = some (val, x) :=
  ⟨by decide, by decide, by decide, by decide, by decide,
    (dp_backtracking_in_bounds 50 [60, 100, 120] [10, 20, 30] (by decide) (by decide) (by decide)
      (by decide) (by decide)).1⟩

/-! ## Evaluations of branch and bound at failing inputs -/

/-- C11 (evaluation at the failing input): on values `[60, 100, 120]`, weights
`[10, 20, 30]`, capacity 50 the search receives the items in the order
`(120, 30), (100, 20), (60, 10)`; the root on the frontier has index 0 and
bound 160, the bound of the items from position 1 on, whereas a node at level
`-1` has bound 220; the include child of the root has index 1, value 100 and
weight 20, those of `items[1]`, not of `items[0]`. -/
theorem bb_root_starts_after_first_item :
    (mkItems [60, 100, 120] [10, 20, 30]).map sortSort =
      some [⟨2, 120, 30, -1⟩, ⟨1, 100, 20, -1⟩, ⟨0, 60, 10, -1⟩] ∧
    bbInit 50 [⟨2, 120, 30, -1⟩, ⟨1, 100, 20, -1⟩, ⟨0, 60, 10, -1⟩] =
      some ([⟨0, 0, 0, 160⟩], 0) ∧
    Node.estimate ⟨-1, 0, 0, 0⟩ 50 3 [⟨2, 120, 30, -1⟩, ⟨1, 100, 20, -1⟩, ⟨0, 60, 10, -1⟩] =
      some 220 ∧
    includeChild ⟨0, 0, 0, 160⟩ [⟨2, 120, 30, -1⟩, ⟨1, 100, 20, -1⟩, ⟨0, 60, 10, -1⟩] =
      some ⟨1, 100, 20, 0⟩ ∧
    bbStep 50 3 [⟨2, 120, 30, -1⟩, ⟨1, 100, 20, -1⟩, ⟨0, 60, 10, -1⟩] ([⟨0, 0, 0, 160⟩], 0) =
      some ([⟨1, 100, 20, 160⟩], 100) := by
  refine ⟨by decide!, by decide, by decide, by decide, by decide⟩

/-- C12 (evaluation at the failing input): on values `[60, 100, 120]`, weights
`[10, 20, 30]` the sequence handed to `knapsackBranchAndBound` is
`(120, 30), (100, 20), (60, 10)`: the value per weight at position 0 is below
the one at position 1, which is below the one at position 2. -/
theorem bb_items_sorted_ascending :
    (mkItems [60, 100, 120] [10, 20, 30]).map sortSort =
      some [⟨2, 120, 30, -1⟩, ⟨1, 100, 20, -1⟩, ⟨0, 60, 10, -1⟩] ∧
    (120 : Rat) / 30 < 100 / 20 ∧ (100 : Rat) / 20 < 60 / 10 := by
  refine ⟨by decide!, by norm_num, by norm_num⟩

/-- C13 (evaluation at the failing input): on values `[60, 100, 120, 30]`,
weights `[10, 20, 30, 10]`, capacity 50 the frontier after the first iteration
holds a node of bound 160 and a node of bound 220; `heap.Pop` returns the node
of bound 160 and leaves the node of bound 220 on the frontier. -/
theorem bb_pop_returns_smallest_bound :
    (mkItems [60, 100, 120, 30] [10, 20, 30, 10]).map sortSort =
      some [⟨3, 30, 10, -1⟩, ⟨2, 120, 30, -1⟩, ⟨1, 100, 20, -1⟩, ⟨0, 60, 10, -1⟩] ∧
    bbInit 50 [⟨3, 30, 10, -1⟩, ⟨2, 120, 30, -1⟩, ⟨1, 100, 20, -1⟩, ⟨0, 60, 10, -1⟩] =
      some ([⟨0, 0, 0, 220⟩], 0) ∧
    bbIter 50 4 [⟨3, 30, 10, -1⟩, ⟨2, 120, 30, -1⟩, ⟨1, 100, 20, -1⟩, ⟨0, 60, 10, -1⟩] 1
      ([⟨0, 0, 0, 220⟩], 0) = some ([⟨1, 0, 0, 160⟩, ⟨1, 120, 30, 220⟩], 120) ∧
    heapPop [⟨1, 0, 0, 160⟩, ⟨1, 120, 30, 220⟩] = some (⟨1, 0, 0, 160⟩, [⟨1, 120, 30, 220⟩]) ∧
    (160 : Int) < 220 := by
  refine ⟨by decide!, by decide, by decide, by decide, by decide⟩

/-- C14 (evaluation at the failing input): on values `[1, 7]`, weights
`[2, 10]`, capacity 5 the greedy loop of the root adds no whole item and stops
at position 1 with running weight 0; `estimate` returns 3, whereas
`0 + 0 + (5 - 0) * 7 / 10` with real-number division is `7 / 2`. -/
theorem bb_estimate_truncates :
    (mkItems [1, 7] [2, 10]).map sortSort = some [⟨0, 1, 2, -1⟩, ⟨1, 7, 10, -1⟩] ∧
    estimateLoop 5 2 [⟨0, 1, 2, -1⟩, ⟨1, 7, 10, -1⟩] 1 1 0 0 = some (1, 0, 0) ∧
    Node.estimate ⟨0, 0, 0, 0⟩ 5 2 [⟨0, 1, 2, -1⟩, ⟨1, 7, 10, -1⟩] = some 3 ∧
    (0 : Rat) + 0 + (5 - 0) * 7 / 10 = 7 / 2 ∧ (3 : Rat) ≠ 7 / 2 := by
  refine ⟨by decide!, by decide, by decide, by norm_num, by norm_num⟩

end Knapsack
